import Mathlib

/-!
Verification of the sparse-matrix engine (`sparse_matrix.py`).

The Python `SparseMatrix` class is shallowly embedded here:
* a Python `dict` is modelled as an association list with unique keys,
  preserving insertion order (`dlookup`, `dinsert`, `derase`);
* Python `int` is modelled by `Int` (arbitrary precision, like Python);
* exceptions are modelled by `Except MErr`;
* file contents are modelled by the `String` passed to / returned from
  the decode / encode functions (the filesystem itself is out of scope).
-/

namespace SpVer

/-! ## Definitions: the shallow embedding of the program -/

/-- Model of Python `d.get(k)` / `k in d`: first (and, with unique keys,
only) binding of `k` in the association list. -/
def dlookup {α β : Type} [DecidableEq α] : List (α × β) → α → Option β
  | [], _ => none
  | (k, v) :: rest, a => if k = a then some v else dlookup rest a

/-- Model of Python `d[k] = v`: overwrite in place when the key is present
(dicts keep the original insertion position), append otherwise. -/
def dinsert {α β : Type} [DecidableEq α] : List (α × β) → α → β → List (α × β)
  | [], a, b => [(a, b)]
  | (k, v) :: rest, a, b =>
    if k = a then (a, b) :: rest else (k, v) :: dinsert rest a b

/-- Model of Python `del d[k]`: drop the binding of `k`. -/
def derase {α β : Type} [DecidableEq α] : List (α × β) → α → List (α × β)
  | [], _ => []
  | (k, v) :: rest, a => if k = a then rest else (k, v) :: derase rest a

/-- The keys of an association list, in order. -/
def dkeys {α β : Type} (l : List (α × β)) : List α := l.map Prod.fst

/-- The ASCII whitespace characters stripped by Python's `str.strip()`
(the unicode-only whitespace code points are irrelevant to this format). -/
def isSpaceChar (ch : Char) : Bool :=
  ch = ' ' ∨ ch = '\t' ∨ ch = '\n' ∨ ch = '\r' ∨ ch.toNat = 11 ∨ ch.toNat = 12

/-- Model of Python `s.strip()`. -/
def strip (l : List Char) : List Char :=
  ((l.dropWhile isSpaceChar).reverse.dropWhile isSpaceChar).reverse

/-- Model of Python `s.split(sep)` for a one-character separator: split at
every occurrence, producing `n+1` (possibly empty) pieces. -/
def splitOnChar (sep : Char) : List Char → List (List Char)
  | [] => [[]]
  | ch :: rest =>
    if ch = sep then [] :: splitOnChar sep rest
    else
      match splitOnChar sep rest with
      | [] => [[ch]]
      | h :: t => (ch :: h) :: t

/-- Model of Python `s.startswith(p)`. -/
def startsWithChars : List Char → List Char → Bool
  | [], _ => true
  | _ :: _, [] => false
  | p :: ps, c :: cs => p = c && startsWithChars ps cs

/-- The value of a decimal digit character, if it is one. -/
def digitVal (ch : Char) : Option Nat :=
  if 48 ≤ ch.toNat ∧ ch.toNat ≤ 57 then some (ch.toNat - 48) else none

def parseDigitsAux (acc : Nat) : List Char → Option Nat
  | [] => some acc
  | ch :: rest =>
    match digitVal ch with
    | some d => parseDigitsAux (10 * acc + d) rest
    | none => none

/-- A non-empty all-digit string read as a natural number. -/
def parseDigits (l : List Char) : Option Nat :=
  if l = [] then none else parseDigitsAux 0 l

/-- The sign-and-digits grammar of Python `int(s)`, applied after
whitespace stripping. -/
def pyIntCore : List Char → Option Int
  | [] => none
  | c :: ds =>
    if c = '-' then (parseDigits ds).map (fun n => -(n : Int))
    else if c = '+' then (parseDigits ds).map (fun n => (n : Int))
    else (parseDigits (c :: ds)).map (fun n => (n : Int))

/-- Model of Python `int(s)`: surrounding whitespace is ignored, an
optional sign precedes a non-empty digit string.  (Python additionally
accepts underscore digit separators and non-ASCII decimal digits; the
file format never produces those, and they decide no claim.) -/
def pyInt (l : List Char) : Option Int := pyIntCore (strip l)

/-- Decimal digits of a natural number, most significant first:
model of Python `str(n)` for `n ≥ 0`. -/
def natRepr (n : Nat) : List Char :=
  if h : n < 10 then [Char.ofNat (48 + n)]
  else natRepr (n / 10) ++ [Char.ofNat (48 + n % 10)]
termination_by n
decreasing_by
  exact Nat.div_lt_self (by omega) (by omega)

/-- Model of Python `str(i)` for an integer. -/
def intRepr (i : Int) : List Char :=
  if i < 0 then '-' :: natRepr i.natAbs else natRepr i.natAbs

/-- A `(row, column)` coordinate.  Python indices are arbitrary-precision
integers, so coordinates are `Int × Int`. -/
abbrev Coord := Int × Int

/-- The error taxonomy of the engine.  The Python code raises
`ValueError` / `IndexError` with distinct messages; each distinct raise
site is mapped to the corresponding spec error name. -/
inductive MErr where
  /-- `ValueError` from the constructor (non-positive dimensions). -/
  | invalidDimensions
  /-- `IndexError` from `get` / `set`. -/
  | outOfBounds
  /-- `ValueError` from `add` / `subtract` on differing shapes. -/
  | shapeMismatch
  /-- `ValueError` from `multiply` on incompatible inner dimensions. -/
  | dimensionMismatch
  /-- `ValueError` from `from_file` on unparsable text. -/
  | malformedInput
deriving DecidableEq

/-- State of one Python `SparseMatrix` instance (minus the
`_last_operation_time` diagnostic field, modelled separately by
`TimedMatrix`). -/
structure SparseMatrix where
  rows : Int
  cols : Int
  /-- `self.elements`: the non-zero set, a dict keyed by `(row, col)`. -/
  elements : List (Coord × Int)
  /-- `self.row_map`: `{row: {col: value}}`. -/
  row_map : List (Int × List (Int × Int))
  /-- `self.col_map`: `{col: {row: value}}`. -/
  col_map : List (Int × List (Int × Int))
  /-- `self.num_nonzero`. -/
  num_nonzero : Int
deriving DecidableEq

deriving instance DecidableEq for Except

/-- `SparseMatrix.__init__`. -/
def SparseMatrix.new (rows cols : Int) : Except MErr SparseMatrix :=
  if rows ≤ 0 ∨ cols ≤ 0 then .error .invalidDimensions
  else .ok { rows := rows, cols := cols, elements := [], row_map := [],
             col_map := [], num_nonzero := 0 }

/-- The bounds test `0 <= row < self.rows and 0 <= col < self.cols`. -/
def SparseMatrix.inBounds (m : SparseMatrix) (row col : Int) : Prop :=
  0 ≤ row ∧ row < m.rows ∧ 0 ≤ col ∧ col < m.cols

instance (m : SparseMatrix) (row col : Int) : Decidable (m.inBounds row col) := by
  unfold SparseMatrix.inBounds
  infer_instance

/-- The deletion branch of `set` (`value == 0` and the entry exists):
remove from all three views, dropping a now-empty inner index dict.  The
two `del` statements on the inner index dicts are modelled by `derase`
on the stored inner list (on any state satisfying invariant I2 the key
is present, exactly as in Python). -/
def setDelete (m : SparseMatrix) (row col : Int) : SparseMatrix :=
  let rmInner := derase ((dlookup m.row_map row).getD []) col
  let cmInner := derase ((dlookup m.col_map col).getD []) row
  { m with
    elements := derase m.elements (row, col),
    row_map := if rmInner = [] then derase m.row_map row
               else dinsert m.row_map row rmInner,
    col_map := if cmInner = [] then derase m.col_map col
               else dinsert m.col_map col cmInner,
    num_nonzero := m.num_nonzero - 1 }

/-- The insertion branch of `set` (`value ≠ 0`): insert/overwrite in all
three views (`row_map` and `col_map` are `defaultdict(dict)`, so a
missing inner dict starts empty). -/
def setInsert (m : SparseMatrix) (row col value : Int) : SparseMatrix :=
  { m with
    elements := dinsert m.elements (row, col) value,
    row_map := dinsert m.row_map row
      (dinsert ((dlookup m.row_map row).getD []) col value),
    col_map := dinsert m.col_map col
      (dinsert ((dlookup m.col_map col).getD []) row value),
    num_nonzero := if (dlookup m.elements (row, col)).isSome then m.num_nonzero
                   else m.num_nonzero + 1 }

/-- `SparseMatrix.set`. -/
def SparseMatrix.set (m : SparseMatrix) (row col value : Int) :
    Except MErr SparseMatrix :=
  if ¬ m.inBounds row col then .error .outOfBounds
  else if value = 0 then
    if (dlookup m.elements (row, col)).isSome then .ok (setDelete m row col)
    else .ok m
  else .ok (setInsert m row col value)

/-- `SparseMatrix.get`. -/
def SparseMatrix.get (m : SparseMatrix) (row col : Int) : Except MErr Int :=
  if ¬ m.inBounds row col then .error .outOfBounds
  else .ok ((dlookup m.elements (row, col)).getD 0)

/-- The mathematical entry of the matrix: the stored value, or 0 when the
coordinate is absent (what `get` returns on any in-bounds coordinate). -/
def SparseMatrix.val (m : SparseMatrix) (row col : Int) : Int :=
  (dlookup m.elements (row, col)).getD 0

/-- Method 1 of `add` (taken when the combined density is below the 1%
threshold): seed the result with `self`'s entries, then fold in `other`'s
entries additively. -/
def addViaFold (a b : SparseMatrix) : Except MErr SparseMatrix := do
  let result ← SparseMatrix.new a.rows a.cols
  let result ← a.elements.foldlM (fun (res : SparseMatrix) e =>
    res.set e.1.1 e.1.2 e.2) result
  b.elements.foldlM (fun (res : SparseMatrix) e => do
    let cur ← res.get e.1.1 e.1.2
    res.set e.1.1 e.1.2 (cur + e.2)) result

/-- Method 2 of `add`: iterate the union of the non-zero coordinate sets
(the Python `set` union, modelled as the duplicate-free concatenation;
the iteration order of a Python set is unspecified and, as proved below,
irrelevant) and store each non-zero combined value. -/
def addViaUnion (a b : SparseMatrix) : Except MErr SparseMatrix := do
  let result ← SparseMatrix.new a.rows a.cols
  let positions := dkeys a.elements ++
    (dkeys b.elements).filter (fun k => ¬ k ∈ dkeys a.elements)
  positions.foldlM (fun (res : SparseMatrix) k => do
    let va ← a.get k.1 k.2
    let vb ← b.get k.1 k.2
    if va + vb ≠ 0 then res.set k.1 k.2 (va + vb) else pure res) result

/-- `SparseMatrix.add`.  The density threshold
`self.num_nonzero + other.num_nonzero < 0.01 * self.rows * self.cols`
is modelled by the exact rational comparison `100·(n₁+n₂) < rows·cols`
(the float `0.01` differs from 1/100 by under 2⁻⁵⁶, and the equivalence
theorem below shows the chosen branch is unobservable anyway). -/
def SparseMatrix.add (a b : SparseMatrix) : Except MErr SparseMatrix :=
  if a.rows ≠ b.rows ∨ a.cols ≠ b.cols then .error .shapeMismatch
  else if 100 * (a.num_nonzero + b.num_nonzero) < a.rows * a.cols then
    addViaFold a b
  else addViaUnion a b

/-- Method 1 of `subtract`. -/
def subViaFold (a b : SparseMatrix) : Except MErr SparseMatrix := do
  let result ← SparseMatrix.new a.rows a.cols
  let result ← a.elements.foldlM (fun (res : SparseMatrix) e =>
    res.set e.1.1 e.1.2 e.2) result
  b.elements.foldlM (fun (res : SparseMatrix) e => do
    let cur ← res.get e.1.1 e.1.2
    res.set e.1.1 e.1.2 (cur - e.2)) result

/-- Method 2 of `subtract`. -/
def subViaUnion (a b : SparseMatrix) : Except MErr SparseMatrix := do
  let result ← SparseMatrix.new a.rows a.cols
  let positions := dkeys a.elements ++
    (dkeys b.elements).filter (fun k => ¬ k ∈ dkeys a.elements)
  positions.foldlM (fun (res : SparseMatrix) k => do
    let va ← a.get k.1 k.2
    let vb ← b.get k.1 k.2
    if va - vb ≠ 0 then res.set k.1 k.2 (va - vb) else pure res) result

/-- `SparseMatrix.subtract`. -/
def SparseMatrix.subtract (a b : SparseMatrix) : Except MErr SparseMatrix :=
  if a.rows ≠ b.rows ∨ a.cols ≠ b.cols then .error .shapeMismatch
  else if 100 * (a.num_nonzero + b.num_nonzero) < a.rows * a.cols then
    subViaFold a b
  else subViaUnion a b

/-- The inner dot-product loop of `multiply`:
`for k, v1 in row_data.items(): if k in other.row_map and col_idx in
other.row_map[k]: value += v1 * other.row_map[k][col_idx]`. -/
def dotStep (other : SparseMatrix) (colIdx : Int) (acc : Int)
    (e : Int × Int) : Int :=
  match dlookup other.row_map e.1 with
  | some inner =>
    match dlookup inner colIdx with
    | some v2 => acc + e.2 * v2
    | none => acc
  | none => acc

/-- `SparseMatrix.multiply`: iterate the non-empty rows of `self` and the
non-empty columns of `other`, and store each non-zero dot product. -/
def SparseMatrix.multiply (a b : SparseMatrix) : Except MErr SparseMatrix :=
  if a.cols ≠ b.rows then .error .dimensionMismatch
  else
    (SparseMatrix.new a.rows b.cols).bind fun result =>
      a.row_map.foldlM (fun (res : SparseMatrix) rowEntry =>
        b.col_map.foldlM (fun (res : SparseMatrix) colEntry =>
          let value := rowEntry.2.foldl (dotStep b colEntry.1) 0
          if value ≠ 0 then res.set rowEntry.1 colEntry.1 value
          else pure res) res) result

/-- Lexicographic order on dict items `((r, c), v)`: the order used by
Python's `sorted(self.elements.items())`. -/
def entryLE (a b : Coord × Int) : Bool :=
  a.1.1 < b.1.1 ∨ (a.1.1 = b.1.1 ∧ (a.1.2 < b.1.2 ∨ (a.1.2 = b.1.2 ∧ a.2 ≤ b.2)))

def insertSorted (x : Coord × Int) : List (Coord × Int) → List (Coord × Int)
  | [] => [x]
  | y :: rest => if entryLE x y then x :: y :: rest else y :: insertSorted x rest

/-- Model of Python `sorted(items)` (insertion sort; on the unique-key
item lists produced here any stable comparison sort yields this list). -/
def sortEntries (l : List (Coord × Int)) : List (Coord × Int) :=
  l.foldr insertSorted []

/-- The text between the parentheses of an entry line: `r, c, v`. -/
def entryInner (r c v : Int) : List Char :=
  intRepr r ++ (',' :: ' ' :: intRepr c) ++ (',' :: ' ' :: intRepr v)

/-- One encoded entry line `(r, c, v)`. -/
def entryLine (r c v : Int) : List Char :=
  '(' :: (entryInner r c v ++ [')'])

/-- The text written for a header plus a given item list: each line is
terminated by `\n` exactly as the `file.write` calls do. -/
def renderFile (rows cols : Int) (entries : List (Coord × Int)) : String :=
  String.mk ("rows=".data ++ intRepr rows ++ '\n' ::
    ("cols=".data ++ intRepr cols ++ '\n' ::
      entries.foldr (fun e acc => entryLine e.1.1 e.1.2 e.2 ++ '\n' :: acc) []))

/-- `SparseMatrix.to_file`: the text written to the file (the filesystem
path is outside the model). -/
def SparseMatrix.to_file (m : SparseMatrix) : String :=
  renderFile m.rows m.cols (sortEntries m.elements)

/-- The line preprocessing of `from_file`:
`[line.strip() for line in file if line.strip()]`. -/
def pyLines (text : String) : List (List Char) :=
  ((splitOnChar '\n' text.data).map strip).filter (fun l => l ≠ [])

/-- Parsing of one entry line inside `from_file`'s loop, given the matrix
built so far.  A raised `IndexError` from `set` escapes the loop and is
converted to `ValueError` by the generic `except Exception` handler, hence
the mapping of `set` errors to `malformedInput`. -/
def parseEntryLine (m : SparseMatrix) (line : List Char) :
    Except MErr SparseMatrix :=
  if ¬ (line.head? = some '(' ∧ line.getLast? = some ')') then
    .error .malformedInput
  else
    match splitOnChar ',' (line.drop 1).dropLast with
    | [s1, s2, s3] =>
      match pyInt s1, pyInt s2, pyInt s3 with
      | some r, some c, some v =>
        match m.set r c v with
        | .ok m' => .ok m'
        | .error _ => .error .malformedInput
      | _, _, _ => .error .malformedInput
    | _ => .error .malformedInput

/-- The body of `from_file` on the preprocessed non-blank line list:
header checks in order, then the entry loop. -/
def parseLines : List (List Char) → Except MErr SparseMatrix
  | l0 :: l1 :: rest =>
    if ¬ startsWithChars "rows=".data l0 then .error .malformedInput
    else if ¬ startsWithChars "cols=".data l1 then .error .malformedInput
    else
      match (splitOnChar '=' l0).get? 1, (splitOnChar '=' l1).get? 1 with
      | some rs, some cs =>
        match pyInt rs, pyInt cs with
        | some rows, some cols =>
          (SparseMatrix.new rows cols).bind fun matrix =>
            rest.foldlM parseEntryLine matrix
        | _, _ => .error .malformedInput
      | _, _ => .error .malformedInput
  | _ => .error .malformedInput

/-- `SparseMatrix.from_file`, applied to the text content of the file
(there are fewer than two non-blank lines exactly when the
`len(lines) < 2` check fires; both paths report `ValueError`). -/
def SparseMatrix.from_file (text : String) : Except MErr SparseMatrix :=
  parseLines (pyLines text)

/-- A sequence of `set` calls on one instance: a call that raises
`IndexError` leaves the matrix unchanged (the exception is thrown before
any mutation), the caller may catch it and continue. -/
def applyOps (m : SparseMatrix) (ops : List (Int × Int × Int)) : SparseMatrix :=
  ops.foldl (fun m op =>
    match m.set op.1 op.2.1 op.2.2 with
    | .ok m' => m'
    | .error _ => m) m

/-- The value of the last op in the list that assigns to coordinate
`(r, c)`, if any. -/
def lastAssign (ops : List (Int × Int × Int)) (r c : Int) : Option Int :=
  ops.foldl (fun acc op => if op.1 = r ∧ op.2.1 = c then some op.2.2 else acc) none

/-- A `SparseMatrix` instance together with its `_last_operation_time`
field.  Python stores wall-clock float seconds there; the model takes the
measured duration as an explicit parameter `dt` of each arithmetic
operation, since the clock is an external oracle. -/
structure TimedMatrix where
  mat : SparseMatrix
  last_operation_time : Int
deriving DecidableEq

/-- `add` at the instance level: returns the post-call states of the
receiver, of the argument, and the freshly constructed result (whose
own timing field is the constructor's `0.0`). -/
def TimedMatrix.add (dt : Int) (a b : TimedMatrix) :
    Except MErr (TimedMatrix × TimedMatrix × TimedMatrix) :=
  match a.mat.add b.mat with
  | .ok r => .ok ({ a with last_operation_time := dt }, b,
      { mat := r, last_operation_time := 0 })
  | .error e => .error e

/-- `subtract` at the instance level. -/
def TimedMatrix.subtract (dt : Int) (a b : TimedMatrix) :
    Except MErr (TimedMatrix × TimedMatrix × TimedMatrix) :=
  match a.mat.subtract b.mat with
  | .ok r => .ok ({ a with last_operation_time := dt }, b,
      { mat := r, last_operation_time := 0 })
  | .error e => .error e

/-- `multiply` at the instance level. -/
def TimedMatrix.multiply (dt : Int) (a b : TimedMatrix) :
    Except MErr (TimedMatrix × TimedMatrix × TimedMatrix) :=
  match a.mat.multiply b.mat with
  | .ok r => .ok ({ a with last_operation_time := dt }, b,
      { mat := r, last_operation_time := 0 })
  | .error e => .error e

/-- Two matrices hold the same content: same shape and the same non-zero
set (dicts are extensional: only their key-value mapping is observable). -/
def ContentEq (a b : SparseMatrix) : Prop :=
  a.rows = b.rows ∧ a.cols = b.cols ∧
    ∀ k : Coord, dlookup a.elements k = dlookup b.elements k

/-- The data-model invariants of a `SparseMatrix` state: positive
dimensions, dict key uniqueness, in-bounds keys, I1 (no stored zero),
I2 (the three views agree) and I3 (no empty inner index maps). -/
structure WF (m : SparseMatrix) : Prop where
  rows_pos : 0 < m.rows
  cols_pos : 0 < m.cols
  elem_nodup : (dkeys m.elements).Nodup
  row_nodup : (dkeys m.row_map).Nodup
  col_nodup : (dkeys m.col_map).Nodup
  inner_row_nodup : ∀ r inner, dlookup m.row_map r = some inner →
    (dkeys inner).Nodup
  inner_col_nodup : ∀ c inner, dlookup m.col_map c = some inner →
    (dkeys inner).Nodup
  bounds : ∀ r c v, dlookup m.elements (r, c) = some v → m.inBounds r c
  nonzero : ∀ r c v, dlookup m.elements (r, c) = some v → v ≠ 0
  row_agree : ∀ r c v, dlookup m.elements (r, c) = some v ↔
    (∃ inner, dlookup m.row_map r = some inner ∧ dlookup inner c = some v)
  col_agree : ∀ r c v, dlookup m.elements (r, c) = some v ↔
    (∃ inner, dlookup m.col_map c = some inner ∧ dlookup inner r = some v)
  row_nonempty : ∀ r inner, dlookup m.row_map r = some inner → inner ≠ []
  col_nonempty : ∀ c inner, dlookup m.col_map c = some inner → inner ≠ []

/-- The last entry of an item list assigning to coordinate `k`. -/
def lastEntry (entries : List (Coord × Int)) (k : Coord) : Option Int :=
  entries.foldl (fun acc e => if e.1 = k then some e.2 else acc) none

/-- The mathematical dot product of row `i` of `a` and column `j` of `b`,
summed over the full inner index range `[0, a.cols)`. -/
def dotProduct (a b : SparseMatrix) (i j : Int) : Int :=
  ∑ k in Finset.Ico (0 : Int) a.cols, a.val i k * b.val k j

/-- A fresh 2×2 matrix state. -/
def exM0 : SparseMatrix := ⟨2, 2, [], [], [], 0⟩

def exA2 : SparseMatrix := applyOps exM0 [(0, 0, 1), (1, 1, 2)]

def exB2 : SparseMatrix := applyOps exM0 [(0, 1, 3)]

/-- The 3×4 matrix C of the multiplication scenario. -/
def exC34 : SparseMatrix :=
  applyOps ⟨3, 4, [], [], [], 0⟩
    [(0, 0, 2), (0, 2, 3), (1, 1, 5), (1, 3, 1), (2, 0, 4), (2, 2, 6)]

/-- The 4×2 matrix D of the multiplication scenario. -/
def exD42 : SparseMatrix :=
  applyOps ⟨4, 2, [], [], [], 0⟩
    [(0, 0, 1), (0, 1, 2), (1, 0, 3), (2, 1, 4), (3, 0, 5)]

def exT2 : TimedMatrix := ⟨exM0, 0⟩

/-- The instance states after `exT2.add(exT2)` with measured duration 7:
receiver with its timing field rewritten, untouched argument, fresh
result. -/
def exAddOut : TimedMatrix × TimedMatrix × TimedMatrix :=
  (⟨exM0, 7⟩, exT2, ⟨exM0, 0⟩)

/-! ## Theorems -/

theorem dlookup_dinsert_self {α β : Type} [DecidableEq α]
    (l : List (α × β)) (a : α) (b : β) : dlookup (dinsert l a b) a = some b := by
  induction l with
  | nil => simp [dinsert, dlookup]
  | cons hd tl ih =>
    obtain ⟨k, v⟩ := hd
    by_cases h : k = a <;> simp [dinsert, dlookup, h, ih]

theorem dlookup_dinsert_ne {α β : Type} [DecidableEq α]
    (l : List (α × β)) (a c : α) (b : β) (h : c ≠ a) :
    dlookup (dinsert l a b) c = dlookup l c := by
  have hac : a ≠ c := Ne.symm h
  induction l with
  | nil => simp [dinsert, dlookup, hac]
  | cons hd tl ih =>
    obtain ⟨k, v⟩ := hd
    by_cases hk : k = a
    · subst hk
      simp [dinsert, dlookup, hac, Ne.symm h]
    · simp [dinsert, dlookup, hk, ih]

theorem dlookup_derase_ne {α β : Type} [DecidableEq α]
    (l : List (α × β)) (a c : α) (h : c ≠ a) :
    dlookup (derase l a) c = dlookup l c := by
  induction l with
  | nil => simp [derase]
  | cons hd tl ih =>
    obtain ⟨k, v⟩ := hd
    by_cases hk : k = a
    · subst hk
      simp [derase, dlookup, Ne.symm h]
    · simp [derase, dlookup, hk, ih]

theorem dlookup_derase_self {α β : Type} [DecidableEq α]
    (l : List (α × β)) (a : α) (hnd : (dkeys l).Nodup) :
    dlookup (derase l a) a = none := by
  induction l with
  | nil => simp [derase, dlookup]
  | cons hd tl ih =>
    obtain ⟨k, v⟩ := hd
    simp only [dkeys, List.map_cons, List.nodup_cons] at hnd
    by_cases hk : k = a
    · subst hk
      simp only [derase, if_pos rfl]
      cases hfind : dlookup tl k with
      | none => exact hfind
      | some w =>
        exfalso
        have : k ∈ tl.map Prod.fst := by
          clear ih hnd
          induction tl with
          | nil => simp [dlookup] at hfind
          | cons h2 t2 ih2 =>
            obtain ⟨k2, v2⟩ := h2
            by_cases h2k : k2 = k
            · simp [h2k]
            · simp only [dlookup, if_neg h2k] at hfind
              simp [ih2 hfind]
        exact hnd.1 this
    · simp [derase, dlookup, hk, ih hnd.2]

theorem dkeys_dinsert_sublist {α β : Type} [DecidableEq α]
    (l : List (α × β)) (a : α) (b : β) :
    dkeys (dinsert l a b) = dkeys l ∨ dkeys (dinsert l a b) = dkeys l ++ [a] := by
  induction l with
  | nil => right; simp [dinsert, dkeys]
  | cons hd tl ih =>
    obtain ⟨k, v⟩ := hd
    by_cases hk : k = a
    · left; simp [dinsert, dkeys, hk]
    · rcases ih with h | h
      · left; simp [dinsert, dkeys, hk] at h ⊢; exact h
      · right; simp [dinsert, dkeys, hk] at h ⊢; exact h

theorem dkeys_dinsert_nodup {α β : Type} [DecidableEq α]
    (l : List (α × β)) (a : α) (b : β) (hnd : (dkeys l).Nodup) :
    (dkeys (dinsert l a b)).Nodup := by
  induction l with
  | nil => simp [dinsert, dkeys]
  | cons hd tl ih =>
    obtain ⟨k, v⟩ := hd
    simp only [dkeys, List.map_cons, List.nodup_cons] at hnd
    by_cases hk : k = a
    · subst hk
      have he : dinsert ((k, v) :: tl) k b = (k, b) :: tl := by
        simp [dinsert]
      rw [he]
      simp only [dkeys, List.map_cons, List.nodup_cons]
      exact ⟨hnd.1, hnd.2⟩
    · simp only [dinsert, if_neg hk, dkeys, List.map_cons, List.nodup_cons]
      refine ⟨?_, ih hnd.2⟩
      intro hmem
      rcases dkeys_dinsert_sublist tl a b with h | h
      · rw [dkeys] at h; rw [h] at hmem; exact hnd.1 hmem
      · rw [dkeys] at h; rw [h] at hmem
        rcases List.mem_append.mp hmem with h1 | h1
        · exact hnd.1 h1
        · simp at h1; exact hk h1

theorem dkeys_derase_sublist {α β : Type} [DecidableEq α]
    (l : List (α × β)) (a : α) : (dkeys (derase l a)).Sublist (dkeys l) := by
  induction l with
  | nil => simp [derase]
  | cons hd tl ih =>
    obtain ⟨k, v⟩ := hd
    by_cases hk : k = a
    · simp only [derase, if_pos hk, dkeys, List.map_cons]
      exact (List.sublist_cons_self _ _)
    · simp only [derase, if_neg hk, dkeys, List.map_cons]
      exact List.Sublist.cons₂ _ ih

theorem dkeys_derase_nodup {α β : Type} [DecidableEq α]
    (l : List (α × β)) (a : α) (hnd : (dkeys l).Nodup) :
    (dkeys (derase l a)).Nodup :=
  (dkeys_derase_sublist l a).nodup hnd

/-- With unique keys, membership of a pair and lookup agree. -/
theorem dlookup_eq_some_iff_mem {α β : Type} [DecidableEq α]
    (l : List (α × β)) (a : α) (b : β) (hnd : (dkeys l).Nodup) :
    dlookup l a = some b ↔ (a, b) ∈ l := by
  induction l with
  | nil => simp [dlookup]
  | cons hd tl ih =>
    obtain ⟨k, v⟩ := hd
    simp only [dkeys, List.map_cons, List.nodup_cons] at hnd
    by_cases hk : k = a
    · subst hk
      simp only [dlookup, if_pos rfl, List.mem_cons]
      constructor
      · rintro h; cases h; left; rfl
      · rintro (h | h)
        · cases h; rfl
        · exfalso
          exact hnd.1 (List.mem_map.mpr ⟨(k, b), h, rfl⟩)
    · simp only [dlookup, if_neg hk, List.mem_cons]
      rw [ih hnd.2]
      constructor
      · exact fun h => Or.inr h
      · rintro (h | h)
        · exact absurd (congrArg Prod.fst h).symm hk
        · exact h

theorem dlookup_eq_none_iff {α β : Type} [DecidableEq α]
    (l : List (α × β)) (a : α) :
    dlookup l a = none ↔ a ∉ dkeys l := by
  induction l with
  | nil => simp [dlookup, dkeys]
  | cons hd tl ih =>
    obtain ⟨k, v⟩ := hd
    by_cases hk : k = a
    · simp [dlookup, dkeys, hk, ih]
    · simp [dlookup, dkeys, hk, ih]
      tauto

/-- Lookup is insensitive to permutation when keys are unique. -/
theorem dlookup_perm {α β : Type} [DecidableEq α]
    (l l' : List (α × β)) (hp : l.Perm l') (hnd : (dkeys l).Nodup) (a : α) :
    dlookup l a = dlookup l' a := by
  have hnd' : (dkeys l').Nodup := ((hp.map Prod.fst).nodup_iff).mp hnd
  cases h : dlookup l a with
  | some b =>
    have := (dlookup_eq_some_iff_mem l a b hnd).mp h
    exact ((dlookup_eq_some_iff_mem l' a b hnd').mpr (hp.mem_iff.mp this)).symm
  | none =>
    have := (dlookup_eq_none_iff l a).mp h
    refine ((dlookup_eq_none_iff l' a).mpr ?_).symm
    intro hmem
    exact this (((hp.map Prod.fst).mem_iff).mpr hmem)

theorem startsWithChars_append (p rest : List Char) :
    startsWithChars p (p ++ rest) = true := by
  induction p with
  | nil => rfl
  | cons c cs ih => simp [startsWithChars, ih]

theorem startsWithChars_iff (p l : List Char) :
    startsWithChars p l = true ↔ ∃ rest, l = p ++ rest := by
  constructor
  · intro h
    induction p generalizing l with
    | nil => exact ⟨l, rfl⟩
    | cons c cs ih =>
      cases l with
      | nil => simp [startsWithChars] at h
      | cons c' cs' =>
        simp only [startsWithChars, Bool.and_eq_true, decide_eq_true_eq] at h
        obtain ⟨rest, hrest⟩ := ih cs' h.2
        exact ⟨rest, by simp [h.1, hrest]⟩
  · rintro ⟨rest, rfl⟩
    exact startsWithChars_append p rest

theorem splitOnChar_of_not_mem (sep : Char) (l : List Char)
    (h : sep ∉ l) : splitOnChar sep l = [l] := by
  induction l with
  | nil => rfl
  | cons c cs ih =>
    have hc : c ≠ sep := fun he => h (he ▸ List.mem_cons_self c cs)
    have hcs : sep ∉ cs := fun hm => h (List.mem_cons_of_mem c hm)
    simp only [splitOnChar, if_neg hc, ih hcs]

theorem splitOnChar_append_cons (sep : Char) (a b : List Char)
    (h : sep ∉ a) : splitOnChar sep (a ++ sep :: b) = a :: splitOnChar sep b := by
  induction a with
  | nil => simp [splitOnChar]
  | cons c cs ih =>
    have hc : c ≠ sep := fun he => h (he ▸ List.mem_cons_self c cs)
    have hcs : sep ∉ cs := fun hm => h (List.mem_cons_of_mem c hm)
    simp only [List.cons_append, splitOnChar, if_neg hc]
    rw [show cs.append (sep :: b) = cs ++ sep :: b from rfl, ih hcs]

theorem strip_of_ends (l : List Char) (h1 : ∀ c, l.head? = some c → isSpaceChar c = false)
    (h2 : ∀ c, l.getLast? = some c → isSpaceChar c = false) : strip l = l := by
  unfold strip
  cases l with
  | nil => rfl
  | cons c cs =>
    have hd : (c :: cs).dropWhile isSpaceChar = c :: cs :=
      List.dropWhile_cons_of_neg (by simp [h1 c rfl])
    rw [hd]
    rcases hlast : (c :: cs).getLast? with _ | cl
    · simp at hlast
    · have hrev : (c :: cs).reverse = cl :: ((c :: cs).reverse.tail) := by
        have : (c :: cs).reverse.head? = some cl := by
          rw [List.head?_reverse]; exact hlast
        cases hr : (c :: cs).reverse with
        | nil => simp [hr] at this
        | cons x xs => rw [hr] at this; simp at this; simp [this]
      rw [hrev, List.dropWhile_cons_of_neg (by simp [h2 cl hlast]), ← hrev,
        List.reverse_reverse]

theorem strip_cons_space (c : Char) (l : List Char) (h : isSpaceChar c = true) :
    strip (c :: l) = strip l := by
  unfold strip
  rw [List.dropWhile_cons_of_pos (by simp [h])]

theorem strip_of_forall (l : List Char) (h : ∀ c ∈ l, isSpaceChar c = false) :
    strip l = l := by
  refine strip_of_ends l ?_ ?_
  · intro c hc
    cases l with
    | nil => simp at hc
    | cons a t =>
      simp only [List.head?_cons, Option.some.injEq] at hc
      exact hc ▸ h a (List.mem_cons_self a t)
  · intro c hc
    exact h c (List.mem_of_mem_getLast? hc)

theorem toNat_ofNat_digit (d : Nat) (h : d < 10) :
    (Char.ofNat (48 + d)).toNat = 48 + d := by
  interval_cases d <;> decide

theorem digitVal_ofNat_digit (d : Nat) (h : d < 10) :
    digitVal (Char.ofNat (48 + d)) = some d := by
  rw [digitVal, toNat_ofNat_digit d h, if_pos (by omega)]
  congr 1
  omega

theorem mem_natRepr_digit (n : Nat) : ∀ c ∈ natRepr n, 48 ≤ c.toNat ∧ c.toNat ≤ 57 := by
  induction n using natRepr.induct with
  | case1 n h =>
    intro c hc
    rw [natRepr, dif_pos h] at hc
    simp only [List.mem_singleton] at hc
    subst hc
    rw [toNat_ofNat_digit n h]
    omega
  | case2 n h ih =>
    intro c hc
    rw [natRepr, dif_neg h] at hc
    rcases List.mem_append.mp hc with h1 | h1
    · exact ih c h1
    · simp only [List.mem_singleton] at h1
      subst h1
      rw [toNat_ofNat_digit _ (Nat.mod_lt n (by omega))]
      have := Nat.mod_lt n (show 0 < 10 by omega)
      omega

theorem natRepr_ne_nil (n : Nat) : natRepr n ≠ [] := by
  rw [natRepr]
  by_cases h : n < 10
  · rw [dif_pos h]; simp
  · rw [dif_neg h]; simp

theorem parseDigitsAux_natRepr (n : Nat) : ∀ acc rest,
    parseDigitsAux acc (natRepr n ++ rest) =
      parseDigitsAux (acc * 10 ^ (natRepr n).length + n) rest := by
  induction n using natRepr.induct with
  | case1 n h =>
    intro acc rest
    rw [natRepr, dif_pos h]
    simp only [List.singleton_append, List.length_singleton, parseDigitsAux,
      digitVal_ofNat_digit n h]
    congr 1
    simp [pow_one]
    ring
  | case2 n h ih =>
    intro acc rest
    rw [natRepr, dif_neg h]
    rw [List.append_assoc, ih acc _, List.singleton_append, parseDigitsAux,
      digitVal_ofNat_digit _ (Nat.mod_lt n (by omega))]
    simp only [List.length_append, List.length_singleton]
    congr 1
    have h10 : 10 * (n / 10) + n % 10 = n := Nat.div_add_mod n 10
    calc 10 * (acc * 10 ^ (natRepr (n / 10)).length + n / 10) + n % 10
        = acc * (10 ^ (natRepr (n / 10)).length * 10) + (10 * (n / 10) + n % 10) := by
          ring
      _ = acc * 10 ^ ((natRepr (n / 10)).length + 1) + n := by
          rw [h10, pow_succ]

theorem parseDigits_natRepr (n : Nat) : parseDigits (natRepr n) = some n := by
  have := parseDigitsAux_natRepr n 0 []
  rw [List.append_nil] at this
  rw [parseDigits, if_neg (natRepr_ne_nil n), this]
  simp [parseDigitsAux]

theorem isSpaceChar_false_of_toNat (c : Char) (h : 40 ≤ c.toNat ∧ c.toNat ≤ 57) :
    isSpaceChar c = false := by
  have h1 : c ≠ ' ' := fun he => by subst he; revert h; decide
  have h2 : c ≠ '\t' := fun he => by subst he; revert h; decide
  have h3 : c ≠ '\n' := fun he => by subst he; revert h; decide
  have h4 : c ≠ '\r' := fun he => by subst he; revert h; decide
  simp only [isSpaceChar, Bool.decide_or, Bool.or_eq_false_iff,
    decide_eq_false_iff_not]
  exact ⟨h1, h2, h3, h4, by omega, by omega⟩

theorem natRepr_not_space (n : Nat) : ∀ c ∈ natRepr n, isSpaceChar c = false := by
  intro c hc
  have hd := mem_natRepr_digit n c hc
  exact isSpaceChar_false_of_toNat c ⟨by omega, hd.2⟩

theorem mem_intRepr (i : Int) :
    ∀ c ∈ intRepr i, c.toNat = 45 ∨ (48 ≤ c.toNat ∧ c.toNat ≤ 57) := by
  intro c hc
  rw [intRepr] at hc
  by_cases h : i < 0
  · rw [if_pos h] at hc
    rcases List.mem_cons.mp hc with h1 | h1
    · left; subst h1; decide
    · right; exact mem_natRepr_digit _ c h1
  · rw [if_neg h] at hc
    right; exact mem_natRepr_digit _ c hc

theorem pyInt_natRepr (n : Nat) : pyInt (natRepr n) = some (n : Int) := by
  rw [pyInt, strip_of_forall _ (natRepr_not_space n)]
  obtain ⟨c, cs, hcs⟩ : ∃ c cs, natRepr n = c :: cs := by
    cases h : natRepr n with
    | nil => exact absurd h (natRepr_ne_nil n)
    | cons c cs => exact ⟨c, cs, rfl⟩
  have hcd : 48 ≤ c.toNat ∧ c.toNat ≤ 57 :=
    mem_natRepr_digit n c (hcs ▸ List.mem_cons_self c cs)
  have hminus : c ≠ '-' := by intro he; subst he; revert hcd; decide
  have hplus : c ≠ '+' := by intro he; subst he; revert hcd; decide
  rw [hcs, pyIntCore, if_neg hminus, if_neg hplus, ← hcs, parseDigits_natRepr n]
  rfl

theorem pyInt_intRepr (i : Int) : pyInt (intRepr i) = some i := by
  by_cases h : i < 0
  · rw [pyInt, intRepr, if_pos h]
    rw [show strip ('-' :: natRepr i.natAbs) = '-' :: natRepr i.natAbs from
      strip_of_forall _ (by
        intro c hc
        rcases List.mem_cons.mp hc with h1 | h1
        · subst h1; decide
        · exact natRepr_not_space _ c h1)]
    rw [pyIntCore, if_pos rfl, parseDigits_natRepr]
    show some (-(i.natAbs : Int)) = some i
    congr 1
    omega
  · rw [intRepr, if_neg h, pyInt_natRepr]
    congr 1
    omega

theorem dinsert_ne_nil {α β : Type} [DecidableEq α]
    (l : List (α × β)) (a : α) (b : β) : dinsert l a b ≠ [] := by
  cases l with
  | nil => simp [dinsert]
  | cons hd tl =>
    obtain ⟨k, v⟩ := hd
    by_cases hk : k = a <;> simp [dinsert, hk]

theorem new_ok (rows cols : Int) (hr : 0 < rows) (hc : 0 < cols) :
    SparseMatrix.new rows cols = .ok ⟨rows, cols, [], [], [], 0⟩ := by
  rw [SparseMatrix.new, if_neg (by omega)]

theorem WF_empty (rows cols : Int) (hr : 0 < rows) (hc : 0 < cols) :
    WF ⟨rows, cols, [], [], [], 0⟩ := by
  refine ⟨hr, hc, ?_, ?_, ?_, ?_, ?_, ?_, ?_, ?_, ?_, ?_, ?_⟩ <;>
    simp [dkeys, dlookup]

theorem get_ok (m : SparseMatrix) (r c : Int) (hin : m.inBounds r c) :
    m.get r c = .ok (m.val r c) := by
  rw [SparseMatrix.get, if_neg (not_not_intro hin)]
  rfl

theorem get_err (m : SparseMatrix) (r c : Int) (h : ¬ m.inBounds r c) :
    m.get r c = .error .outOfBounds := by
  rw [SparseMatrix.get, if_pos h]

theorem set_err (m : SparseMatrix) (r c v : Int) (h : ¬ m.inBounds r c) :
    m.set r c v = .error .outOfBounds := by
  rw [SparseMatrix.set, if_pos h]

theorem lookup_eq_val (m : SparseMatrix) (hWF : WF m) (r c : Int) :
    dlookup m.elements (r, c) =
      if m.val r c = 0 then none else some (m.val r c) := by
  cases h : dlookup m.elements (r, c) with
  | none => simp [SparseMatrix.val, h]
  | some v =>
    have hv := hWF.nonzero r c v h
    simp [SparseMatrix.val, h, hv]

theorem setInsert_elements_lookup (m : SparseMatrix) (r c v : Int) (k : Coord) :
    dlookup (setInsert m r c v).elements k =
      if k = (r, c) then some v else dlookup m.elements k := by
  by_cases hk : k = (r, c)
  · subst hk
    simp [setInsert, dlookup_dinsert_self]
  · simp only [setInsert, if_neg hk]
    exact dlookup_dinsert_ne _ _ _ _ hk

theorem setDelete_elements_lookup (m : SparseMatrix) (r c : Int)
    (hnd : (dkeys m.elements).Nodup) (k : Coord) :
    dlookup (setDelete m r c).elements k =
      if k = (r, c) then none else dlookup m.elements k := by
  by_cases hk : k = (r, c)
  · subst hk
    simp [setDelete, dlookup_derase_self _ _ hnd]
  · simp only [setDelete, if_neg hk]
    exact dlookup_derase_ne _ _ _ hk

/-- The `row_agree` invariant, read through the `defaultdict` lookup of
the inner row dict. -/
theorem row_agree_getD (m : SparseMatrix) (hWF : WF m) (r c : Int) (v : Int) :
    (dlookup m.elements (r, c) = some v ↔
      dlookup ((dlookup m.row_map r).getD []) c = some v) := by
  rw [hWF.row_agree r c v]
  cases h : dlookup m.row_map r with
  | none => simp [dlookup]
  | some i => simp

theorem col_agree_getD (m : SparseMatrix) (hWF : WF m) (r c : Int) (v : Int) :
    (dlookup m.elements (r, c) = some v ↔
      dlookup ((dlookup m.col_map c).getD []) r = some v) := by
  rw [hWF.col_agree r c v]
  cases h : dlookup m.col_map c with
  | none => simp [dlookup]
  | some i => simp

theorem WF_setInsert (m : SparseMatrix) (r c v : Int) (hWF : WF m)
    (hin : m.inBounds r c) (hv : v ≠ 0) : WF (setInsert m r c v) := by
  have hRnd : (dkeys ((dlookup m.row_map r).getD [])).Nodup := by
    cases h : dlookup m.row_map r with
    | none => simp [dkeys]
    | some i => exact hWF.inner_row_nodup r i h
  have hCnd : (dkeys ((dlookup m.col_map c).getD [])).Nodup := by
    cases h : dlookup m.col_map c with
    | none => simp [dkeys]
    | some i => exact hWF.inner_col_nodup c i h
  refine ⟨hWF.rows_pos, hWF.cols_pos, ?_, ?_, ?_, ?_, ?_, ?_, ?_, ?_, ?_, ?_, ?_⟩
  · exact dkeys_dinsert_nodup _ _ _ hWF.elem_nodup
  · exact dkeys_dinsert_nodup _ _ _ hWF.row_nodup
  · exact dkeys_dinsert_nodup _ _ _ hWF.col_nodup
  · -- inner_row_nodup
    intro r' inner h
    by_cases hr : r' = r
    · subst hr
      rw [show (setInsert m r' c v).row_map =
        dinsert m.row_map r' (dinsert ((dlookup m.row_map r').getD []) c v)
        from rfl, dlookup_dinsert_self] at h
      cases h
      exact dkeys_dinsert_nodup _ _ _ hRnd
    · rw [show (setInsert m r c v).row_map =
        dinsert m.row_map r (dinsert ((dlookup m.row_map r).getD []) c v)
        from rfl, dlookup_dinsert_ne _ _ _ _ hr] at h
      exact hWF.inner_row_nodup r' inner h
  · -- inner_col_nodup
    intro c' inner h
    by_cases hc : c' = c
    · subst hc
      rw [show (setInsert m r c' v).col_map =
        dinsert m.col_map c' (dinsert ((dlookup m.col_map c').getD []) r v)
        from rfl, dlookup_dinsert_self] at h
      cases h
      exact dkeys_dinsert_nodup _ _ _ hCnd
    · rw [show (setInsert m r c v).col_map =
        dinsert m.col_map c (dinsert ((dlookup m.col_map c).getD []) r v)
        from rfl, dlookup_dinsert_ne _ _ _ _ hc] at h
      exact hWF.inner_col_nodup c' inner h
  · -- bounds
    intro r' c' v' h
    rw [setInsert_elements_lookup] at h
    by_cases hk : ((r', c') : Coord) = (r, c)
    · have h1 : r' = r := congrArg Prod.fst hk
      have h2 : c' = c := congrArg Prod.snd hk
      subst h1
      subst h2
      exact hin
    · rw [if_neg hk] at h
      exact hWF.bounds r' c' v' h
  · -- nonzero
    intro r' c' v' h
    rw [setInsert_elements_lookup] at h
    by_cases hk : ((r', c') : Coord) = (r, c)
    · rw [if_pos hk] at h
      cases h
      exact hv
    · rw [if_neg hk] at h
      exact hWF.nonzero r' c' v' h
  · -- row_agree
    intro r' c' v'
    rw [setInsert_elements_lookup]
    rw [show (setInsert m r c v).row_map =
      dinsert m.row_map r (dinsert ((dlookup m.row_map r).getD []) c v) from rfl]
    by_cases hr : r' = r
    · subst hr
      rw [dlookup_dinsert_self]
      by_cases hc : c' = c
      · subst hc
        simp [dlookup_dinsert_self]
      · rw [if_neg (by simp [hc])]
        simp only [Option.some.injEq, exists_eq_left']
        rw [dlookup_dinsert_ne _ _ _ _ hc]
        exact row_agree_getD m hWF r' c' v'
    · rw [if_neg (by simp [hr]), dlookup_dinsert_ne _ _ _ _ hr]
      exact hWF.row_agree r' c' v'
  · -- col_agree
    intro r' c' v'
    rw [setInsert_elements_lookup]
    rw [show (setInsert m r c v).col_map =
      dinsert m.col_map c (dinsert ((dlookup m.col_map c).getD []) r v) from rfl]
    by_cases hc : c' = c
    · subst hc
      rw [dlookup_dinsert_self]
      by_cases hr : r' = r
      · subst hr
        simp [dlookup_dinsert_self]
      · rw [if_neg (by simp [hr])]
        simp only [Option.some.injEq, exists_eq_left']
        rw [dlookup_dinsert_ne _ _ _ _ hr]
        exact col_agree_getD m hWF r' c' v'
    · rw [if_neg (by simp [hc]), dlookup_dinsert_ne _ _ _ _ hc]
      exact hWF.col_agree r' c' v'
  · -- row_nonempty
    intro r' inner h
    by_cases hr : r' = r
    · subst hr
      rw [show (setInsert m r' c v).row_map =
        dinsert m.row_map r' (dinsert ((dlookup m.row_map r').getD []) c v)
        from rfl, dlookup_dinsert_self] at h
      cases h
      exact dinsert_ne_nil _ _ _
    · rw [show (setInsert m r c v).row_map =
        dinsert m.row_map r (dinsert ((dlookup m.row_map r).getD []) c v)
        from rfl, dlookup_dinsert_ne _ _ _ _ hr] at h
      exact hWF.row_nonempty r' inner h
  · -- col_nonempty
    intro c' inner h
    by_cases hc : c' = c
    · subst hc
      rw [show (setInsert m r c' v).col_map =
        dinsert m.col_map c' (dinsert ((dlookup m.col_map c').getD []) r v)
        from rfl, dlookup_dinsert_self] at h
      cases h
      exact dinsert_ne_nil _ _ _
    · rw [show (setInsert m r c v).col_map =
        dinsert m.col_map c (dinsert ((dlookup m.col_map c).getD []) r v)
        from rfl, dlookup_dinsert_ne _ _ _ _ hc] at h
      exact hWF.col_nonempty c' inner h

theorem setDelete_row_map_lookup (m : SparseMatrix) (hWF : WF m) (r c : Int)
    (r' : Int) :
    dlookup (setDelete m r c).row_map r' =
      if r' = r then
        (if derase ((dlookup m.row_map r).getD []) c = [] then none
         else some (derase ((dlookup m.row_map r).getD []) c))
      else dlookup m.row_map r' := by
  simp only [setDelete]
  by_cases hrm : derase ((dlookup m.row_map r).getD []) c = []
  · rw [if_pos hrm, if_pos hrm]
    by_cases hr : r' = r
    · subst hr
      rw [if_pos rfl, dlookup_derase_self _ _ hWF.row_nodup]
    · rw [if_neg hr, dlookup_derase_ne _ _ _ hr]
  · rw [if_neg hrm, if_neg hrm]
    by_cases hr : r' = r
    · subst hr
      rw [if_pos rfl, dlookup_dinsert_self]
    · rw [if_neg hr, dlookup_dinsert_ne _ _ _ _ hr]

theorem setDelete_col_map_lookup (m : SparseMatrix) (hWF : WF m) (r c : Int)
    (c' : Int) :
    dlookup (setDelete m r c).col_map c' =
      if c' = c then
        (if derase ((dlookup m.col_map c).getD []) r = [] then none
         else some (derase ((dlookup m.col_map c).getD []) r))
      else dlookup m.col_map c' := by
  simp only [setDelete]
  by_cases hcm : derase ((dlookup m.col_map c).getD []) r = []
  · rw [if_pos hcm, if_pos hcm]
    by_cases hc : c' = c
    · subst hc
      rw [if_pos rfl, dlookup_derase_self _ _ hWF.col_nodup]
    · rw [if_neg hc, dlookup_derase_ne _ _ _ hc]
  · rw [if_neg hcm, if_neg hcm]
    by_cases hc : c' = c
    · subst hc
      rw [if_pos rfl, dlookup_dinsert_self]
    · rw [if_neg hc, dlookup_dinsert_ne _ _ _ _ hc]

theorem WF_setDelete (m : SparseMatrix) (r c v₀ : Int) (hWF : WF m)
    (hsome : dlookup m.elements (r, c) = some v₀) : WF (setDelete m r c) := by
  obtain ⟨iR, hiR, hiRc⟩ := (hWF.row_agree r c v₀).mp hsome
  obtain ⟨iC, hiC, hiCr⟩ := (hWF.col_agree r c v₀).mp hsome
  have hgR : (dlookup m.row_map r).getD [] = iR := by rw [hiR]; rfl
  have hgC : (dlookup m.col_map c).getD [] = iC := by rw [hiC]; rfl
  have hiRnd : (dkeys iR).Nodup := hWF.inner_row_nodup r iR hiR
  have hiCnd : (dkeys iC).Nodup := hWF.inner_col_nodup c iC hiC
  refine ⟨hWF.rows_pos, hWF.cols_pos, ?_, ?_, ?_, ?_, ?_, ?_, ?_, ?_, ?_, ?_, ?_⟩
  · exact dkeys_derase_nodup _ _ hWF.elem_nodup
  · simp only [setDelete]
    by_cases hrm : derase ((dlookup m.row_map r).getD []) c = []
    · rw [if_pos hrm]
      exact dkeys_derase_nodup _ _ hWF.row_nodup
    · rw [if_neg hrm]
      exact dkeys_dinsert_nodup _ _ _ hWF.row_nodup
  · simp only [setDelete]
    by_cases hcm : derase ((dlookup m.col_map c).getD []) r = []
    · rw [if_pos hcm]
      exact dkeys_derase_nodup _ _ hWF.col_nodup
    · rw [if_neg hcm]
      exact dkeys_dinsert_nodup _ _ _ hWF.col_nodup
  · -- inner_row_nodup
    intro r' inner h
    rw [setDelete_row_map_lookup m hWF r c r'] at h
    by_cases hr : r' = r
    · rw [if_pos hr] at h
      by_cases hrm : derase ((dlookup m.row_map r).getD []) c = []
      · rw [if_pos hrm] at h
        cases h
      · rw [if_neg hrm] at h
        cases h
        rw [hgR]
        exact dkeys_derase_nodup _ _ hiRnd
    · rw [if_neg hr] at h
      exact hWF.inner_row_nodup r' inner h
  · -- inner_col_nodup
    intro c' inner h
    rw [setDelete_col_map_lookup m hWF r c c'] at h
    by_cases hc : c' = c
    · rw [if_pos hc] at h
      by_cases hcm : derase ((dlookup m.col_map c).getD []) r = []
      · rw [if_pos hcm] at h
        cases h
      · rw [if_neg hcm] at h
        cases h
        rw [hgC]
        exact dkeys_derase_nodup _ _ hiCnd
    · rw [if_neg hc] at h
      exact hWF.inner_col_nodup c' inner h
  · -- bounds
    intro r' c' v' h
    rw [setDelete_elements_lookup m r c hWF.elem_nodup] at h
    by_cases hk : ((r', c') : Coord) = (r, c)
    · rw [if_pos hk] at h
      cases h
    · rw [if_neg hk] at h
      exact hWF.bounds r' c' v' h
  · -- nonzero
    intro r' c' v' h
    rw [setDelete_elements_lookup m r c hWF.elem_nodup] at h
    by_cases hk : ((r', c') : Coord) = (r, c)
    · rw [if_pos hk] at h
      cases h
    · rw [if_neg hk] at h
      exact hWF.nonzero r' c' v' h
  · -- row_agree
    intro r' c' v'
    rw [setDelete_elements_lookup m r c hWF.elem_nodup]
    by_cases hr : r' = r
    · subst hr
      by_cases hc : c' = c
      · subst hc
        rw [if_pos rfl]
        constructor
        · intro h
          cases h
        · rintro ⟨inner, hin1, hin2⟩
          rw [setDelete_row_map_lookup m hWF r' c' r', if_pos rfl] at hin1
          by_cases hrm : derase ((dlookup m.row_map r').getD []) c' = []
          · rw [if_pos hrm] at hin1
            cases hin1
          · rw [if_neg hrm] at hin1
            cases hin1
            rw [hgR, dlookup_derase_self _ _ hiRnd] at hin2
            cases hin2
      · rw [if_neg (by simp [hc])]
        by_cases hrm : derase ((dlookup m.row_map r').getD []) c = []
        · constructor
          · intro h
            exfalso
            have h2 := (row_agree_getD m hWF r' c' v').mp h
            rw [hgR] at h2
            have h3 : dlookup (derase iR c) c' = some v' := by
              rw [dlookup_derase_ne _ _ _ hc]
              exact h2
            rw [hgR] at hrm
            rw [hrm] at h3
            cases h3
          · rintro ⟨inner, hin1, hin2⟩
            rw [setDelete_row_map_lookup m hWF r' c r', if_pos rfl,
              if_pos hrm] at hin1
            cases hin1
        · constructor
          · intro h
            refine ⟨derase ((dlookup m.row_map r').getD []) c, ?_, ?_⟩
            · rw [setDelete_row_map_lookup m hWF r' c r', if_pos rfl,
                if_neg hrm]
            · rw [dlookup_derase_ne _ _ _ hc]
              exact (row_agree_getD m hWF r' c' v').mp h
          · rintro ⟨inner, hin1, hin2⟩
            rw [setDelete_row_map_lookup m hWF r' c r', if_pos rfl,
              if_neg hrm] at hin1
            cases hin1
            rw [dlookup_derase_ne _ _ _ hc] at hin2
            exact (row_agree_getD m hWF r' c' v').mpr hin2
    · rw [if_neg (by simp [hr])]
      have hrw : dlookup (setDelete m r c).row_map r' = dlookup m.row_map r' := by
        rw [setDelete_row_map_lookup m hWF r c r', if_neg hr]
      rw [hrw]
      exact hWF.row_agree r' c' v'
  · -- col_agree
    intro r' c' v'
    rw [setDelete_elements_lookup m r c hWF.elem_nodup]
    by_cases hc : c' = c
    · subst hc
      by_cases hr : r' = r
      · subst hr
        rw [if_pos rfl]
        constructor
        · intro h
          cases h
        · rintro ⟨inner, hin1, hin2⟩
          rw [setDelete_col_map_lookup m hWF r' c' c', if_pos rfl] at hin1
          by_cases hcm : derase ((dlookup m.col_map c').getD []) r' = []
          · rw [if_pos hcm] at hin1
            cases hin1
          · rw [if_neg hcm] at hin1
            cases hin1
            rw [hgC, dlookup_derase_self _ _ hiCnd] at hin2
            cases hin2
      · rw [if_neg (by simp [hr])]
        by_cases hcm : derase ((dlookup m.col_map c').getD []) r = []
        · constructor
          · intro h
            exfalso
            have h2 := (col_agree_getD m hWF r' c' v').mp h
            rw [hgC] at h2
            have h3 : dlookup (derase iC r) r' = some v' := by
              rw [dlookup_derase_ne _ _ _ hr]
              exact h2
            rw [hgC] at hcm
            rw [hcm] at h3
            cases h3
          · rintro ⟨inner, hin1, hin2⟩
            rw [setDelete_col_map_lookup m hWF r c' c', if_pos rfl,
              if_pos hcm] at hin1
            cases hin1
        · constructor
          · intro h
            refine ⟨derase ((dlookup m.col_map c').getD []) r, ?_, ?_⟩
            · rw [setDelete_col_map_lookup m hWF r c' c', if_pos rfl,
                if_neg hcm]
            · rw [dlookup_derase_ne _ _ _ hr]
              exact (col_agree_getD m hWF r' c' v').mp h
          · rintro ⟨inner, hin1, hin2⟩
            rw [setDelete_col_map_lookup m hWF r c' c', if_pos rfl,
              if_neg hcm] at hin1
            cases hin1
            rw [dlookup_derase_ne _ _ _ hr] at hin2
            exact (col_agree_getD m hWF r' c' v').mpr hin2
    · rw [if_neg (by simp [hc])]
      have hcw : dlookup (setDelete m r c).col_map c' = dlookup m.col_map c' := by
        rw [setDelete_col_map_lookup m hWF r c c', if_neg hc]
      rw [hcw]
      exact hWF.col_agree r' c' v'
  · -- row_nonempty
    intro r' inner h
    rw [setDelete_row_map_lookup m hWF r c r'] at h
    by_cases hr : r' = r
    · rw [if_pos hr] at h
      by_cases hrm : derase ((dlookup m.row_map r).getD []) c = []
      · rw [if_pos hrm] at h
        cases h
      · rw [if_neg hrm] at h
        cases h
        exact hrm
    · rw [if_neg hr] at h
      exact hWF.row_nonempty r' inner h
  · -- col_nonempty
    intro c' inner h
    rw [setDelete_col_map_lookup m hWF r c c'] at h
    by_cases hc : c' = c
    · rw [if_pos hc] at h
      by_cases hcm : derase ((dlookup m.col_map c).getD []) r = []
      · rw [if_pos hcm] at h
        cases h
      · rw [if_neg hcm] at h
        cases h
        exact hcm
    · rw [if_neg hc] at h
      exact hWF.col_nonempty c' inner h

/-- Master lemma for `set` on an in-bounds coordinate: it succeeds, keeps
the shape, preserves all invariants, and updates the non-zero set exactly
like a map update that stores nothing for value 0. -/
theorem set_ok (m : SparseMatrix) (r c v : Int) (hWF : WF m)
    (hin : m.inBounds r c) :
    ∃ m', m.set r c v = .ok m' ∧ m'.rows = m.rows ∧ m'.cols = m.cols ∧
      WF m' ∧
      ∀ k : Coord, dlookup m'.elements k =
        if k = (r, c) then (if v = 0 then none else some v)
        else dlookup m.elements k := by
  rw [SparseMatrix.set, if_neg (not_not_intro hin)]
  by_cases hv : v = 0
  · rw [if_pos hv]
    cases hsome : dlookup m.elements (r, c) with
    | some v₀ =>
      simp only [Option.isSome_some, if_true]
      refine ⟨setDelete m r c, rfl, rfl, rfl, WF_setDelete m r c v₀ hWF hsome, ?_⟩
      intro k
      rw [setDelete_elements_lookup m r c hWF.elem_nodup k, if_pos hv]
    | none =>
      simp only [Option.isSome_none, Bool.false_eq_true, if_false]
      refine ⟨m, rfl, rfl, rfl, hWF, ?_⟩
      intro k
      by_cases hk : k = (r, c)
      · rw [if_pos hk, if_pos hv, hk, hsome]
      · rw [if_neg hk]
  · rw [if_neg hv]
    refine ⟨setInsert m r c v, rfl, rfl, rfl, WF_setInsert m r c v hWF hin hv, ?_⟩
    intro k
    rw [setInsert_elements_lookup m r c v k]
    by_cases hk : k = (r, c)
    · rw [if_pos hk, if_pos hk, if_neg hv]
    · rw [if_neg hk, if_neg hk]

theorem lastAssign_aux (ops : List (Int × Int × Int)) (r c : Int) :
    ∀ init : Option Int,
      ops.foldl (fun acc op =>
        if op.1 = r ∧ op.2.1 = c then some op.2.2 else acc) init =
      match lastAssign ops r c with
      | some w => some w
      | none => init := by
  induction ops with
  | nil => intro init; rfl
  | cons op rest ih =>
    intro init
    rw [List.foldl_cons, ih]
    have hc : lastAssign (op :: rest) r c =
        rest.foldl (fun acc op =>
          if op.1 = r ∧ op.2.1 = c then some op.2.2 else acc)
          (if op.1 = r ∧ op.2.1 = c then some op.2.2 else none) := rfl
    rw [hc, ih]
    cases lastAssign rest r c with
    | some w => rfl
    | none =>
      by_cases hp : op.1 = r ∧ op.2.1 = c
      · simp only [if_pos hp]
      · simp only [if_neg hp]

theorem lastAssign_cons (op : Int × Int × Int) (ops : List (Int × Int × Int))
    (r c : Int) :
    lastAssign (op :: ops) r c =
      match lastAssign ops r c with
      | some w => some w
      | none => if op.1 = r ∧ op.2.1 = c then some op.2.2 else none := by
  have hc : lastAssign (op :: ops) r c =
      ops.foldl (fun acc op =>
        if op.1 = r ∧ op.2.1 = c then some op.2.2 else acc)
        (if op.1 = r ∧ op.2.1 = c then some op.2.2 else none) := rfl
  rw [hc, lastAssign_aux]

theorem lastEntry_aux (entries : List (Coord × Int)) (k : Coord) :
    ∀ init : Option Int,
      entries.foldl (fun acc e => if e.1 = k then some e.2 else acc) init =
      match lastEntry entries k with
      | some w => some w
      | none => init := by
  induction entries with
  | nil => intro init; rfl
  | cons e rest ih =>
    intro init
    rw [List.foldl_cons, ih]
    have hc : lastEntry (e :: rest) k =
        rest.foldl (fun acc e => if e.1 = k then some e.2 else acc)
          (if e.1 = k then some e.2 else none) := rfl
    rw [hc, ih]
    cases lastEntry rest k with
    | some w => rfl
    | none =>
      by_cases hp : e.1 = k
      · simp only [if_pos hp]
      · simp only [if_neg hp]

theorem lastEntry_cons (e : Coord × Int) (entries : List (Coord × Int))
    (k : Coord) :
    lastEntry (e :: entries) k =
      match lastEntry entries k with
      | some w => some w
      | none => if e.1 = k then some e.2 else none := by
  have hc : lastEntry (e :: entries) k =
      entries.foldl (fun acc e => if e.1 = k then some e.2 else acc)
        (if e.1 = k then some e.2 else none) := rfl
  rw [hc, lastEntry_aux]

/-- On a unique-key item list the last assignment is the only one. -/
theorem lastEntry_eq_dlookup (l : List (Coord × Int))
    (hnd : (dkeys l).Nodup) (k : Coord) : lastEntry l k = dlookup l k := by
  induction l with
  | nil => rfl
  | cons e rest ih =>
    obtain ⟨k₀, v₀⟩ := e
    simp only [dkeys, List.map_cons, List.nodup_cons] at hnd
    rw [lastEntry_cons, ih hnd.2]
    by_cases hk : k₀ = k
    · subst hk
      have : dlookup rest k₀ = none :=
        (dlookup_eq_none_iff rest k₀).mpr hnd.1
      rw [this]
      simp [dlookup]
    · simp only [dlookup, if_neg hk]
      cases dlookup rest k with
      | some w => rfl
      | none => simp [hk]

theorem applyOps_spec (ops : List (Int × Int × Int)) :
    ∀ m : SparseMatrix, WF m →
      WF (applyOps m ops) ∧ (applyOps m ops).rows = m.rows ∧
      (applyOps m ops).cols = m.cols ∧
      ∀ r c : Int, m.inBounds r c →
        dlookup (applyOps m ops).elements (r, c) =
          match lastAssign ops r c with
          | some w => if w = 0 then none else some w
          | none => dlookup m.elements (r, c) := by
  induction ops with
  | nil =>
    intro m hWF
    exact ⟨hWF, rfl, rfl, fun r c _ => rfl⟩
  | cons op rest ih =>
    intro m hWF
    have hstep : applyOps m (op :: rest) =
        applyOps (match m.set op.1 op.2.1 op.2.2 with
          | .ok m' => m'
          | .error _ => m) rest := rfl
    by_cases hb : m.inBounds op.1 op.2.1
    · obtain ⟨m₁, hset, hrows, hcols, hWF₁, hchar⟩ :=
        set_ok m op.1 op.2.1 op.2.2 hWF hb
      rw [hset] at hstep
      obtain ⟨hW, hr, hc, hlook⟩ := ih m₁ hWF₁
      rw [hstep]
      refine ⟨hW, hr.trans hrows, hc.trans hcols, ?_⟩
      intro r c hin
      have hin₁ : m₁.inBounds r c := by
        unfold SparseMatrix.inBounds at hin ⊢
        rw [hrows, hcols]
        exact hin
      rw [hlook r c hin₁, lastAssign_cons]
      cases hla : lastAssign rest r c with
      | some w => rfl
      | none =>
        simp only
        by_cases hp : op.1 = r ∧ op.2.1 = c
        · rw [if_pos hp, hchar (r, c), if_pos (by rw [← hp.1, ← hp.2])]
        · rw [if_neg hp, hchar (r, c), if_neg (by
            intro he
            exact hp ⟨(congrArg Prod.fst he).symm, (congrArg Prod.snd he).symm⟩)]
    · rw [set_err m op.1 op.2.1 op.2.2 hb] at hstep
      obtain ⟨hW, hr, hc, hlook⟩ := ih m hWF
      rw [hstep]
      refine ⟨hW, hr, hc, ?_⟩
      intro r c hin
      rw [hlook r c hin, lastAssign_cons]
      cases hla : lastAssign rest r c with
      | some w => rfl
      | none =>
        simp only
        by_cases hp : op.1 = r ∧ op.2.1 = c
        · exfalso
          apply hb
          rw [hp.1, hp.2]
          exact hin
        · rw [if_neg hp]

/-- Replaying an entry list with `set`, aborting on the first error (the
shape used by `from_file`'s loop and by method 1 of `add`/`subtract`):
with in-bounds entries it always succeeds, preserves the invariants, and
the resulting non-zero set holds the last assigned non-zero value of each
coordinate. -/
theorem foldlM_set_ok (entries : List (Coord × Int)) :
    ∀ m : SparseMatrix, WF m →
      (∀ e ∈ entries, m.inBounds e.1.1 e.1.2) →
      ∃ m', entries.foldlM
          (fun (res : SparseMatrix) e => res.set e.1.1 e.1.2 e.2) m = .ok m' ∧
        m'.rows = m.rows ∧ m'.cols = m.cols ∧ WF m' ∧
        ∀ k : Coord, dlookup m'.elements k =
          match lastEntry entries k with
          | some w => if w = 0 then none else some w
          | none => dlookup m.elements k := by
  induction entries with
  | nil =>
    intro m hWF _
    exact ⟨m, rfl, rfl, rfl, hWF, fun k => rfl⟩
  | cons e rest ih =>
    intro m hWF hb
    obtain ⟨m₁, hset, hrows, hcols, hWF₁, hchar⟩ :=
      set_ok m e.1.1 e.1.2 e.2 hWF (hb e (List.mem_cons_self e rest))
    have hb₁ : ∀ e' ∈ rest, m₁.inBounds e'.1.1 e'.1.2 := by
      intro e' he'
      have := hb e' (List.mem_cons_of_mem e he')
      unfold SparseMatrix.inBounds at this ⊢
      rw [hrows, hcols]
      exact this
    obtain ⟨m', hfold, hr, hc, hW, hlook⟩ := ih m₁ hWF₁ hb₁
    refine ⟨m', ?_, hr.trans hrows, hc.trans hcols, hW, ?_⟩
    · rw [List.foldlM_cons, hset]
      exact hfold
    · intro k
      rw [hlook k, lastEntry_cons]
      cases hle : lastEntry rest k with
      | some w => rfl
      | none =>
        simp only
        by_cases hp : e.1 = k
        · rw [if_pos hp, hchar k, if_pos (by rw [← hp])]
        · rw [if_neg hp, hchar k, if_neg (fun he => hp he.symm)]

theorem inBounds_congr {m m' : SparseMatrix} (hr : m'.rows = m.rows)
    (hc : m'.cols = m.cols) {r c : Int} (h : m.inBounds r c) :
    m'.inBounds r c := by
  unfold SparseMatrix.inBounds at h ⊢
  rw [hr, hc]
  exact h

/-- Phase 1 of method 1 run on an empty result: it copies the operand's
non-zero set. -/
theorem phase1_lookup (a m0 m1 : SparseMatrix) (hA : WF a)
    (hchar : ∀ k : Coord, dlookup m1.elements k =
      match lastEntry a.elements k with
      | some w => if w = 0 then none else some w
      | none => dlookup m0.elements k)
    (h0 : ∀ k : Coord, dlookup m0.elements k = none) :
    ∀ k : Coord, dlookup m1.elements k = dlookup a.elements k := by
  intro k
  rw [hchar k, lastEntry_eq_dlookup a.elements hA.elem_nodup k]
  cases h : dlookup a.elements k with
  | none => exact h0 k
  | some w =>
    have hv : w ≠ 0 := hA.nonzero k.1 k.2 w h
    simp [hv]

/-- Phase 2 of method 1: fold the second operand's entries into the
seeded result with `new_val = result.get(r, c) ⋄ v; result.set(r, c,
new_val)`.  Generic in the combining operation `⋄`. -/
theorem foldlM_accum_ok (op : Int → Int → Int) (entries : List (Coord × Int)) :
    ∀ m : SparseMatrix, WF m →
      (∀ e ∈ entries, m.inBounds e.1.1 e.1.2) →
      (dkeys entries).Nodup →
      ∃ m', entries.foldlM (fun (res : SparseMatrix) e => do
          let cur ← res.get e.1.1 e.1.2
          res.set e.1.1 e.1.2 (op cur e.2)) m = .ok m' ∧
        m'.rows = m.rows ∧ m'.cols = m.cols ∧ WF m' ∧
        ∀ k : Coord, dlookup m'.elements k =
          match dlookup entries k with
          | some w =>
            if op ((dlookup m.elements k).getD 0) w = 0 then none
            else some (op ((dlookup m.elements k).getD 0) w)
          | none => dlookup m.elements k := by
  induction entries with
  | nil =>
    intro m hWF _ _
    exact ⟨m, rfl, rfl, rfl, hWF, fun k => rfl⟩
  | cons e rest ih =>
    intro m hWF hb hnd
    simp only [dkeys, List.map_cons, List.nodup_cons] at hnd
    have hbe : m.inBounds e.1.1 e.1.2 := hb e (List.mem_cons_self e rest)
    obtain ⟨m₁, hset, hrows, hcols, hWF₁, hchar⟩ :=
      set_ok m e.1.1 e.1.2 (op (m.val e.1.1 e.1.2) e.2) hWF hbe
    have hb₁ : ∀ e' ∈ rest, m₁.inBounds e'.1.1 e'.1.2 := fun e' he' =>
      inBounds_congr hrows hcols (hb e' (List.mem_cons_of_mem e he'))
    obtain ⟨m', hfold, hr, hc, hW, hlook⟩ := ih m₁ hWF₁ hb₁ hnd.2
    refine ⟨m', ?_, hr.trans hrows, hc.trans hcols, hW, ?_⟩
    · rw [List.foldlM_cons, get_ok m e.1.1 e.1.2 hbe]
      show (m.set e.1.1 e.1.2 (op (m.val e.1.1 e.1.2) e.2)).bind _ = _
      rw [hset]
      exact hfold
    · intro k
      rw [hlook k]
      by_cases hk : e.1 = k
      · subst hk
        have hrest : dlookup rest e.1 = none := by
          rw [dlookup_eq_none_iff]
          exact hnd.1
        have hkey : dlookup (e :: rest) e.1 = some e.2 := by
          cases e with
          | mk k₀ v₀ => simp [dlookup]
        rw [hrest, hkey, hchar e.1]
        rw [if_pos (show e.1 = (e.1.1, e.1.2) from rfl)]
        rfl
      · have hkey : dlookup (e :: rest) k = dlookup rest k := by
          cases e with
          | mk k₀ v₀ => simp [dlookup, hk]
        rw [hkey]
        have hm₁ : dlookup m₁.elements k = dlookup m.elements k := by
          rw [hchar k, if_neg (by
            intro he
            exact hk (by rw [he]))]
        rw [hm₁]

/-- Method 2's loop: iterate a list of candidate coordinates and store
each non-zero combined value.  Generic in the combining operation. -/
theorem foldlM_union_ok (op : Int → Int → Int) (a b : SparseMatrix)
    (positions : List Coord) :
    ∀ m : SparseMatrix, WF m → m.rows = a.rows → m.cols = a.cols →
      a.rows = b.rows → a.cols = b.cols →
      (∀ p ∈ positions, a.inBounds p.1 p.2) →
      ∃ m', positions.foldlM (fun (res : SparseMatrix) k => do
          let va ← a.get k.1 k.2
          let vb ← b.get k.1 k.2
          if op va vb ≠ 0 then res.set k.1 k.2 (op va vb) else pure res) m
          = .ok m' ∧
        m'.rows = m.rows ∧ m'.cols = m.cols ∧ WF m' ∧
        ∀ k : Coord, dlookup m'.elements k =
          if k ∈ positions ∧ op (a.val k.1 k.2) (b.val k.1 k.2) ≠ 0 then
            some (op (a.val k.1 k.2) (b.val k.1 k.2))
          else dlookup m.elements k := by
  induction positions with
  | nil =>
    intro m hWF _ _ _ _ _
    refine ⟨m, rfl, rfl, rfl, hWF, fun k => ?_⟩
    rw [if_neg (by simp)]
  | cons p rest ih =>
    intro m hWF hmr hmc hab1 hab2 hb
    have hpa : a.inBounds p.1 p.2 := hb p (List.mem_cons_self p rest)
    have hpb : b.inBounds p.1 p.2 := inBounds_congr hab1.symm hab2.symm hpa
    have hpm : m.inBounds p.1 p.2 := inBounds_congr hmr hmc hpa
    by_cases hz : op (a.val p.1 p.2) (b.val p.1 p.2) ≠ 0
    · obtain ⟨m₁, hset, hrows, hcols, hWF₁, hchar⟩ :=
        set_ok m p.1 p.2 (op (a.val p.1 p.2) (b.val p.1 p.2)) hWF hpm
      obtain ⟨m', hfold, hr, hc, hW, hlook⟩ :=
        ih m₁ hWF₁ (hrows.trans hmr) (hcols.trans hmc) hab1 hab2
          (fun p' hp' => hb p' (List.mem_cons_of_mem p hp'))
      refine ⟨m', ?_, hr.trans hrows, hc.trans hcols, hW, ?_⟩
      · rw [List.foldlM_cons, get_ok a p.1 p.2 hpa]
        show ((b.get p.1 p.2).bind _).bind _ = _
        rw [get_ok b p.1 p.2 hpb]
        show (if op (a.val p.1 p.2) (b.val p.1 p.2) ≠ 0 then
          m.set p.1 p.2 (op (a.val p.1 p.2) (b.val p.1 p.2))
          else pure m).bind _ = _
        rw [if_pos hz, hset]
        exact hfold
      · intro k
        rw [hlook k]
        by_cases hmem : k ∈ rest ∧ op (a.val k.1 k.2) (b.val k.1 k.2) ≠ 0
        · rw [if_pos hmem, if_pos ⟨List.mem_cons_of_mem p hmem.1, hmem.2⟩]
        · rw [if_neg hmem, hchar k]
          by_cases hkp : k = (p.1, p.2)
          · have hkp' : p = k := by rw [hkp]
            subst hkp'
            rw [if_pos (show (p : Coord) = (p.1, p.2) from rfl), if_neg hz,
              if_pos (And.intro (List.mem_cons_self p rest) hz)]
          · rw [if_neg hkp]
            rw [if_neg (by
              rintro ⟨hk1, hk2⟩
              rcases List.mem_cons.mp hk1 with h1 | h1
              · exact hkp (by rw [h1])
              · exact hmem ⟨h1, hk2⟩)]
    · obtain ⟨m', hfold, hr, hc, hW, hlook⟩ :=
        ih m hWF hmr hmc hab1 hab2
          (fun p' hp' => hb p' (List.mem_cons_of_mem p hp'))
      refine ⟨m', ?_, hr, hc, hW, ?_⟩
      · rw [List.foldlM_cons, get_ok a p.1 p.2 hpa]
        show ((b.get p.1 p.2).bind _).bind _ = _
        rw [get_ok b p.1 p.2 hpb]
        show (if op (a.val p.1 p.2) (b.val p.1 p.2) ≠ 0 then
          m.set p.1 p.2 (op (a.val p.1 p.2) (b.val p.1 p.2))
          else pure m).bind _ = _
        rw [if_neg hz]
        exact hfold
      · intro k
        rw [hlook k]
        by_cases hmem : k ∈ rest ∧ op (a.val k.1 k.2) (b.val k.1 k.2) ≠ 0
        · rw [if_pos hmem, if_pos ⟨List.mem_cons_of_mem p hmem.1, hmem.2⟩]
        · rw [if_neg hmem]
          rw [if_neg (by
            rintro ⟨hk1, hk2⟩
            rcases List.mem_cons.mp hk1 with h1 | h1
            · subst h1
              exact hz hk2
            · exact hmem ⟨h1, hk2⟩)]

theorem bounds_of_mem (a : SparseMatrix) (hA : WF a) :
    ∀ e ∈ a.elements, a.inBounds e.1.1 e.1.2 := by
  intro e he
  exact hA.bounds e.1.1 e.1.2 e.2
    ((dlookup_eq_some_iff_mem a.elements e.1 e.2 hA.elem_nodup).mpr he)

theorem lookup_ne_none_of_val (m : SparseMatrix) (k : Coord)
    (h : m.val k.1 k.2 ≠ 0) : k ∈ dkeys m.elements := by
  by_contra hmem
  have := (dlookup_eq_none_iff m.elements k).mpr hmem
  apply h
  show (dlookup m.elements (k.1, k.2)).getD 0 = 0
  have hk : ((k.1, k.2) : Coord) = k := rfl
  rw [hk, this]
  rfl

/-- The result of method 1 of `add`: pointwise sums, zeros omitted. -/
theorem addViaFold_ok (a b : SparseMatrix) (hA : WF a) (hB : WF b)
    (hr : a.rows = b.rows) (hc : a.cols = b.cols) :
    ∃ m, addViaFold a b = .ok m ∧ m.rows = a.rows ∧ m.cols = a.cols ∧ WF m ∧
      ∀ k : Coord, dlookup m.elements k =
        if a.val k.1 k.2 + b.val k.1 k.2 = 0 then none
        else some (a.val k.1 k.2 + b.val k.1 k.2) := by
  have h0 : SparseMatrix.new a.rows a.cols = .ok ⟨a.rows, a.cols, [], [], [], 0⟩ :=
    new_ok _ _ hA.rows_pos hA.cols_pos
  have hWF0 : WF ⟨a.rows, a.cols, [], [], [], 0⟩ :=
    WF_empty _ _ hA.rows_pos hA.cols_pos
  have hb0 : ∀ e ∈ a.elements,
      (⟨a.rows, a.cols, [], [], [], 0⟩ : SparseMatrix).inBounds e.1.1 e.1.2 :=
    fun e he => bounds_of_mem a hA e he
  obtain ⟨m₁, hfold1, hrows1, hcols1, hWF1, hchar1⟩ :=
    foldlM_set_ok a.elements ⟨a.rows, a.cols, [], [], [], 0⟩ hWF0 hb0
  have hm₁ : ∀ k : Coord, dlookup m₁.elements k = dlookup a.elements k :=
    phase1_lookup a _ m₁ hA hchar1 (fun k => rfl)
  have hb1 : ∀ e ∈ b.elements, m₁.inBounds e.1.1 e.1.2 := by
    intro e he
    have hra : m₁.rows = b.rows := by
      have h1 : m₁.rows = a.rows := hrows1
      rw [h1, hr]
    have hca : m₁.cols = b.cols := by
      have h1 : m₁.cols = a.cols := hcols1
      rw [h1, hc]
    exact inBounds_congr hra hca (bounds_of_mem b hB e he)
  obtain ⟨m₂, hfold2, hrows2, hcols2, hWF2, hchar2⟩ :=
    foldlM_accum_ok (fun x y => x + y) b.elements m₁ hWF1 hb1 hB.elem_nodup
  refine ⟨m₂, ?_, hrows2.trans hrows1, hcols2.trans hcols1, hWF2, ?_⟩
  · show (SparseMatrix.new a.rows a.cols).bind _ = .ok m₂
    rw [h0]
    show (a.elements.foldlM
      (fun (res : SparseMatrix) e => res.set e.1.1 e.1.2 e.2)
      (⟨a.rows, a.cols, [], [], [], 0⟩ : SparseMatrix)).bind _ = .ok m₂
    rw [hfold1]
    exact hfold2
  · intro k
    rw [hchar2 k, hm₁ k]
    have hbval : ∀ w, dlookup b.elements k = some w → b.val k.1 k.2 = w := by
      intro w hw
      show (dlookup b.elements (k.1, k.2)).getD 0 = w
      have hk : ((k.1, k.2) : Coord) = k := rfl
      rw [hk, hw]
      rfl
    cases hbk : dlookup b.elements k with
    | some w =>
      rw [hbval w hbk]
      rfl
    | none =>
      have hbz : b.val k.1 k.2 = 0 := by
        show (dlookup b.elements (k.1, k.2)).getD 0 = 0
        have hk : ((k.1, k.2) : Coord) = k := rfl
        rw [hk, hbk]
        rfl
      rw [hbz, add_zero, lookup_eq_val a hA k.1 k.2]

/-- The result of method 2 of `add`: identical pointwise sums. -/
theorem addViaUnion_ok (a b : SparseMatrix) (hA : WF a) (hB : WF b)
    (hr : a.rows = b.rows) (hc : a.cols = b.cols) :
    ∃ m, addViaUnion a b = .ok m ∧ m.rows = a.rows ∧ m.cols = a.cols ∧ WF m ∧
      ∀ k : Coord, dlookup m.elements k =
        if a.val k.1 k.2 + b.val k.1 k.2 = 0 then none
        else some (a.val k.1 k.2 + b.val k.1 k.2) := by
  have h0 : SparseMatrix.new a.rows a.cols = .ok ⟨a.rows, a.cols, [], [], [], 0⟩ :=
    new_ok _ _ hA.rows_pos hA.cols_pos
  have hWF0 : WF ⟨a.rows, a.cols, [], [], [], 0⟩ :=
    WF_empty _ _ hA.rows_pos hA.cols_pos
  have hpos : ∀ p ∈ dkeys a.elements ++
      (dkeys b.elements).filter (fun k => ¬ k ∈ dkeys a.elements),
      a.inBounds p.1 p.2 := by
    intro p hp
    rcases List.mem_append.mp hp with h1 | h1
    · obtain ⟨e, he, hek⟩ := List.mem_map.mp h1
      have := bounds_of_mem a hA e he
      rw [← hek]
      exact this
    · have h2 := (List.mem_filter.mp h1).1
      obtain ⟨e, he, hek⟩ := List.mem_map.mp h2
      have := bounds_of_mem b hB e he
      rw [← hek]
      exact inBounds_congr hr hc this
  obtain ⟨m', hfold, hrows, hcols, hWF', hchar⟩ :=
    foldlM_union_ok (fun x y => x + y) a b
      (dkeys a.elements ++
        (dkeys b.elements).filter (fun k => ¬ k ∈ dkeys a.elements))
      ⟨a.rows, a.cols, [], [], [], 0⟩ hWF0 rfl rfl hr hc hpos
  refine ⟨m', ?_, hrows, hcols, hWF', ?_⟩
  · show (SparseMatrix.new a.rows a.cols).bind _ = .ok m'
    rw [h0]
    exact hfold
  · intro k
    rw [hchar k]
    by_cases hz : a.val k.1 k.2 + b.val k.1 k.2 = 0
    · rw [if_pos hz, if_neg (by rintro ⟨_, h2⟩; exact h2 hz)]
      rfl
    · have hmem : k ∈ dkeys a.elements ++
          (dkeys b.elements).filter (fun k => ¬ k ∈ dkeys a.elements) := by
        by_cases ha : k ∈ dkeys a.elements
        · exact List.mem_append.mpr (Or.inl ha)
        · refine List.mem_append.mpr (Or.inr (List.mem_filter.mpr ⟨?_, by simp [ha]⟩))
          by_cases hb : k ∈ dkeys b.elements
          · exact hb
          · exfalso
            apply hz
            have haz : a.val k.1 k.2 = 0 := by
              by_contra haz
              exact ha (lookup_ne_none_of_val a k haz)
            have hbz : b.val k.1 k.2 = 0 := by
              by_contra hbz
              exact hb (lookup_ne_none_of_val b k hbz)
            rw [haz, hbz, add_zero]
      rw [if_pos ⟨hmem, hz⟩, if_neg hz]

/-- `add` succeeds on equal shapes with the pointwise-sum non-zero set,
whichever strategy the density threshold selects. -/
theorem add_ok (a b : SparseMatrix) (hA : WF a) (hB : WF b)
    (hr : a.rows = b.rows) (hc : a.cols = b.cols) :
    ∃ m, a.add b = .ok m ∧ m.rows = a.rows ∧ m.cols = a.cols ∧ WF m ∧
      ∀ k : Coord, dlookup m.elements k =
        if a.val k.1 k.2 + b.val k.1 k.2 = 0 then none
        else some (a.val k.1 k.2 + b.val k.1 k.2) := by
  rw [SparseMatrix.add, if_neg (by simp [hr, hc])]
  by_cases ht : 100 * (a.num_nonzero + b.num_nonzero) < a.rows * a.cols
  · rw [if_pos ht]
    exact addViaFold_ok a b hA hB hr hc
  · rw [if_neg ht]
    exact addViaUnion_ok a b hA hB hr hc

theorem add_err (a b : SparseMatrix) (h : a.rows ≠ b.rows ∨ a.cols ≠ b.cols) :
    a.add b = .error .shapeMismatch := by
  rw [SparseMatrix.add, if_pos h]

/-- The result of method 1 of `subtract`. -/
theorem subViaFold_ok (a b : SparseMatrix) (hA : WF a) (hB : WF b)
    (hr : a.rows = b.rows) (hc : a.cols = b.cols) :
    ∃ m, subViaFold a b = .ok m ∧ m.rows = a.rows ∧ m.cols = a.cols ∧ WF m ∧
      ∀ k : Coord, dlookup m.elements k =
        if a.val k.1 k.2 - b.val k.1 k.2 = 0 then none
        else some (a.val k.1 k.2 - b.val k.1 k.2) := by
  have h0 : SparseMatrix.new a.rows a.cols = .ok ⟨a.rows, a.cols, [], [], [], 0⟩ :=
    new_ok _ _ hA.rows_pos hA.cols_pos
  have hWF0 : WF ⟨a.rows, a.cols, [], [], [], 0⟩ :=
    WF_empty _ _ hA.rows_pos hA.cols_pos
  have hb0 : ∀ e ∈ a.elements,
      (⟨a.rows, a.cols, [], [], [], 0⟩ : SparseMatrix).inBounds e.1.1 e.1.2 :=
    fun e he => bounds_of_mem a hA e he
  obtain ⟨m₁, hfold1, hrows1, hcols1, hWF1, hchar1⟩ :=
    foldlM_set_ok a.elements ⟨a.rows, a.cols, [], [], [], 0⟩ hWF0 hb0
  have hm₁ : ∀ k : Coord, dlookup m₁.elements k = dlookup a.elements k :=
    phase1_lookup a _ m₁ hA hchar1 (fun k => rfl)
  have hb1 : ∀ e ∈ b.elements, m₁.inBounds e.1.1 e.1.2 := by
    intro e he
    have hra : m₁.rows = b.rows := by
      have h1 : m₁.rows = a.rows := hrows1
      rw [h1, hr]
    have hca : m₁.cols = b.cols := by
      have h1 : m₁.cols = a.cols := hcols1
      rw [h1, hc]
    exact inBounds_congr hra hca (bounds_of_mem b hB e he)
  obtain ⟨m₂, hfold2, hrows2, hcols2, hWF2, hchar2⟩ :=
    foldlM_accum_ok (fun x y => x - y) b.elements m₁ hWF1 hb1 hB.elem_nodup
  refine ⟨m₂, ?_, hrows2.trans hrows1, hcols2.trans hcols1, hWF2, ?_⟩
  · show (SparseMatrix.new a.rows a.cols).bind _ = .ok m₂
    rw [h0]
    show (a.elements.foldlM
      (fun (res : SparseMatrix) e => res.set e.1.1 e.1.2 e.2)
      (⟨a.rows, a.cols, [], [], [], 0⟩ : SparseMatrix)).bind _ = .ok m₂
    rw [hfold1]
    exact hfold2
  · intro k
    rw [hchar2 k, hm₁ k]
    have hbval : ∀ w, dlookup b.elements k = some w → b.val k.1 k.2 = w := by
      intro w hw
      show (dlookup b.elements (k.1, k.2)).getD 0 = w
      have hk : ((k.1, k.2) : Coord) = k := rfl
      rw [hk, hw]
      rfl
    cases hbk : dlookup b.elements k with
    | some w =>
      rw [hbval w hbk]
      rfl
    | none =>
      have hbz : b.val k.1 k.2 = 0 := by
        show (dlookup b.elements (k.1, k.2)).getD 0 = 0
        have hk : ((k.1, k.2) : Coord) = k := rfl
        rw [hk, hbk]
        rfl
      rw [hbz, sub_zero, lookup_eq_val a hA k.1 k.2]

/-- The result of method 2 of `subtract`. -/
theorem subViaUnion_ok (a b : SparseMatrix) (hA : WF a) (hB : WF b)
    (hr : a.rows = b.rows) (hc : a.cols = b.cols) :
    ∃ m, subViaUnion a b = .ok m ∧ m.rows = a.rows ∧ m.cols = a.cols ∧ WF m ∧
      ∀ k : Coord, dlookup m.elements k =
        if a.val k.1 k.2 - b.val k.1 k.2 = 0 then none
        else some (a.val k.1 k.2 - b.val k.1 k.2) := by
  have h0 : SparseMatrix.new a.rows a.cols = .ok ⟨a.rows, a.cols, [], [], [], 0⟩ :=
    new_ok _ _ hA.rows_pos hA.cols_pos
  have hWF0 : WF ⟨a.rows, a.cols, [], [], [], 0⟩ :=
    WF_empty _ _ hA.rows_pos hA.cols_pos
  have hpos : ∀ p ∈ dkeys a.elements ++
      (dkeys b.elements).filter (fun k => ¬ k ∈ dkeys a.elements),
      a.inBounds p.1 p.2 := by
    intro p hp
    rcases List.mem_append.mp hp with h1 | h1
    · obtain ⟨e, he, hek⟩ := List.mem_map.mp h1
      have := bounds_of_mem a hA e he
      rw [← hek]
      exact this
    · have h2 := (List.mem_filter.mp h1).1
      obtain ⟨e, he, hek⟩ := List.mem_map.mp h2
      have := bounds_of_mem b hB e he
      rw [← hek]
      exact inBounds_congr hr hc this
  obtain ⟨m', hfold, hrows, hcols, hWF', hchar⟩ :=
    foldlM_union_ok (fun x y => x - y) a b
      (dkeys a.elements ++
        (dkeys b.elements).filter (fun k => ¬ k ∈ dkeys a.elements))
      ⟨a.rows, a.cols, [], [], [], 0⟩ hWF0 rfl rfl hr hc hpos
  refine ⟨m', ?_, hrows, hcols, hWF', ?_⟩
  · show (SparseMatrix.new a.rows a.cols).bind _ = .ok m'
    rw [h0]
    exact hfold
  · intro k
    rw [hchar k]
    by_cases hz : a.val k.1 k.2 - b.val k.1 k.2 = 0
    · rw [if_pos hz, if_neg (by rintro ⟨_, h2⟩; exact h2 hz)]
      rfl
    · have hmem : k ∈ dkeys a.elements ++
          (dkeys b.elements).filter (fun k => ¬ k ∈ dkeys a.elements) := by
        by_cases ha : k ∈ dkeys a.elements
        · exact List.mem_append.mpr (Or.inl ha)
        · refine List.mem_append.mpr (Or.inr (List.mem_filter.mpr ⟨?_, by simp [ha]⟩))
          by_cases hb : k ∈ dkeys b.elements
          · exact hb
          · exfalso
            apply hz
            have haz : a.val k.1 k.2 = 0 := by
              by_contra haz
              exact ha (lookup_ne_none_of_val a k haz)
            have hbz : b.val k.1 k.2 = 0 := by
              by_contra hbz
              exact hb (lookup_ne_none_of_val b k hbz)
            rw [haz, hbz, sub_zero]
      rw [if_pos ⟨hmem, hz⟩, if_neg hz]

/-- `subtract` succeeds on equal shapes with the pointwise-difference
non-zero set, whichever strategy the density threshold selects. -/
theorem subtract_ok (a b : SparseMatrix) (hA : WF a) (hB : WF b)
    (hr : a.rows = b.rows) (hc : a.cols = b.cols) :
    ∃ m, a.subtract b = .ok m ∧ m.rows = a.rows ∧ m.cols = a.cols ∧ WF m ∧
      ∀ k : Coord, dlookup m.elements k =
        if a.val k.1 k.2 - b.val k.1 k.2 = 0 then none
        else some (a.val k.1 k.2 - b.val k.1 k.2) := by
  rw [SparseMatrix.subtract, if_neg (by simp [hr, hc])]
  by_cases ht : 100 * (a.num_nonzero + b.num_nonzero) < a.rows * a.cols
  · rw [if_pos ht]
    exact subViaFold_ok a b hA hB hr hc
  · rw [if_neg ht]
    exact subViaUnion_ok a b hA hB hr hc

theorem subtract_err (a b : SparseMatrix)
    (h : a.rows ≠ b.rows ∨ a.cols ≠ b.cols) :
    a.subtract b = .error .shapeMismatch := by
  rw [SparseMatrix.subtract, if_pos h]

/-- One step of the inner loop adds `v1 * other.get(k, j)` (the
intersection test against `other.row_map` is exactly a `get` on `b`). -/
theorem dotStep_eq (b : SparseMatrix) (hB : WF b) (j : Int) (acc : Int)
    (e : Int × Int) : dotStep b j acc e = acc + e.2 * b.val e.1 j := by
  rw [dotStep]
  cases hbr : dlookup b.row_map e.1 with
  | none =>
    have hz : b.val e.1 j = 0 := by
      show (dlookup b.elements (e.1, j)).getD 0 = 0
      cases hbe : dlookup b.elements (e.1, j) with
      | none => rfl
      | some v =>
        obtain ⟨inner, h1, _⟩ := (hB.row_agree e.1 j v).mp hbe
        rw [hbr] at h1
        cases h1
    rw [hz, mul_zero, add_zero]
  | some inner =>
    cases hbi : dlookup inner j with
    | none =>
      have hz : b.val e.1 j = 0 := by
        show (dlookup b.elements (e.1, j)).getD 0 = 0
        cases hbe : dlookup b.elements (e.1, j) with
        | none => rfl
        | some v =>
          obtain ⟨inner', h1, h2⟩ := (hB.row_agree e.1 j v).mp hbe
          rw [hbr] at h1
          cases h1
          rw [hbi] at h2
          cases h2
      rw [hz, mul_zero, add_zero]
      show (match dlookup inner j with
        | some v2 => acc + e.2 * v2
        | none => acc) = acc
      rw [hbi]
    | some v2 =>
      have hv : b.val e.1 j = v2 := by
        show (dlookup b.elements (e.1, j)).getD 0 = v2
        rw [(hB.row_agree e.1 j v2).mpr ⟨inner, hbr, hbi⟩]
        rfl
      rw [hv]
      show (match dlookup inner j with
        | some w => acc + e.2 * w
        | none => acc) = acc + e.2 * v2
      rw [hbi]

theorem foldl_ext {α β : Type} (f g : β → α → β) (h : ∀ acc x, f acc x = g acc x) :
    ∀ (l : List α) (init : β), l.foldl f init = l.foldl g init := by
  intro l
  induction l with
  | nil => intro init; rfl
  | cons x t ih =>
    intro init
    rw [List.foldl_cons, List.foldl_cons, h, ih]

theorem foldl_add_eq_sum (f : Int × Int → Int) (l : List (Int × Int)) :
    ∀ init : Int, l.foldl (fun acc e => acc + f e) init = init + (l.map f).sum := by
  induction l with
  | nil => intro init; simp
  | cons e t ih =>
    intro init
    rw [List.foldl_cons, ih, List.map_cons, List.sum_cons]
    ring

/-- A sum over a unique-key assoc list with in-range keys equals the sum
over the whole index range of the looked-up values (missing keys
contributing `g k 0 = 0`). -/
theorem listsum_eq_Ico (g : Int → Int → Int) (N : Int)
    (hg : ∀ k, g k 0 = 0) :
    ∀ l : List (Int × Int), (dkeys l).Nodup →
      (∀ e ∈ l, 0 ≤ e.1 ∧ e.1 < N) →
      (l.map (fun e => g e.1 e.2)).sum =
        ∑ k in Finset.Ico (0 : Int) N, g k ((dlookup l k).getD 0) := by
  intro l
  induction l with
  | nil =>
    intro _ _
    simp only [List.map_nil, List.sum_nil]
    rw [Finset.sum_eq_zero]
    intro k _
    exact hg k
  | cons e t ih =>
    intro hnd hbd
    simp only [dkeys, List.map_cons, List.nodup_cons] at hnd
    have he : e.1 ∈ Finset.Ico (0 : Int) N := by
      rw [Finset.mem_Ico]
      exact hbd e (List.mem_cons_self e t)
    have hsplit : g e.1 ((dlookup (e :: t) e.1).getD 0) +
        ∑ k in (Finset.Ico (0 : Int) N).erase e.1,
          g k ((dlookup (e :: t) k).getD 0) =
        ∑ k in Finset.Ico (0 : Int) N, g k ((dlookup (e :: t) k).getD 0) :=
      Finset.add_sum_erase _ (fun k => g k ((dlookup (e :: t) k).getD 0)) he
    have hhead : g e.1 ((dlookup (e :: t) e.1).getD 0) = g e.1 e.2 := by
      cases e with
      | mk k₀ v₀ => simp [dlookup]
    have hcongr : ∑ k in (Finset.Ico (0 : Int) N).erase e.1,
        g k ((dlookup (e :: t) k).getD 0) =
        ∑ k in (Finset.Ico (0 : Int) N).erase e.1,
        g k ((dlookup t k).getD 0) := by
      refine Finset.sum_congr rfl ?_
      intro k hk
      have hne : e.1 ≠ k := fun he' => (Finset.mem_erase.mp hk).1 he'.symm
      cases e with
      | mk k₀ v₀ => simp [dlookup, hne]
    have hsplit' : g e.1 ((dlookup t e.1).getD 0) +
        ∑ k in (Finset.Ico (0 : Int) N).erase e.1,
          g k ((dlookup t k).getD 0) =
        ∑ k in Finset.Ico (0 : Int) N, g k ((dlookup t k).getD 0) :=
      Finset.add_sum_erase _ (fun k => g k ((dlookup t k).getD 0)) he
    have htail0 : g e.1 ((dlookup t e.1).getD 0) = 0 := by
      rw [(dlookup_eq_none_iff t e.1).mpr hnd.1]
      exact hg e.1
    have hih := ih hnd.2 (fun e' he' => hbd e' (List.mem_cons_of_mem e he'))
    rw [List.map_cons, List.sum_cons, ← hsplit, hhead, hcongr, hih, ← hsplit',
      htail0, zero_add]

/-- With `row_map[i] = rowData`, the stored row values are the matrix
entries of row `i`. -/
theorem val_eq_rowData (a : SparseMatrix) (hA : WF a) (i : Int)
    (rowData : List (Int × Int)) (h : dlookup a.row_map i = some rowData)
    (k : Int) : a.val i k = (dlookup rowData k).getD 0 := by
  cases hrk : dlookup rowData k with
  | some v =>
    show (dlookup a.elements (i, k)).getD 0 = _
    rw [(hA.row_agree i k v).mpr ⟨rowData, h, hrk⟩]
  | none =>
    show (dlookup a.elements (i, k)).getD 0 = _
    cases hek : dlookup a.elements (i, k) with
    | none => rfl
    | some v =>
      obtain ⟨inner, h1, h2⟩ := (hA.row_agree i k v).mp hek
      rw [h] at h1
      cases h1
      rw [hrk] at h2
      cases h2

theorem rowData_bounds (a : SparseMatrix) (hA : WF a) (i : Int)
    (rowData : List (Int × Int)) (h : dlookup a.row_map i = some rowData) :
    ∀ e ∈ rowData, 0 ≤ e.1 ∧ e.1 < a.cols := by
  intro e he
  have hnd := hA.inner_row_nodup i rowData h
  have hlk : dlookup rowData e.1 = some e.2 :=
    (dlookup_eq_some_iff_mem rowData e.1 e.2 hnd).mpr he
  have helem : dlookup a.elements (i, e.1) = some e.2 :=
    (hA.row_agree i e.1 e.2).mpr ⟨rowData, h, hlk⟩
  have := hA.bounds i e.1 e.2 helem
  exact ⟨this.2.2.1, this.2.2.2⟩

/-- The inner loop of `multiply` computes the dot product of row `i` of
`a` and column `j` of `b` over the whole inner range. -/
theorem dotFold_eq (a b : SparseMatrix) (hA : WF a) (hB : WF b)
    (i j : Int) (rowData : List (Int × Int))
    (hrow : dlookup a.row_map i = some rowData) :
    rowData.foldl (dotStep b j) 0 = dotProduct a b i j := by
  have hstep : rowData.foldl (dotStep b j) 0 =
      rowData.foldl (fun acc e => acc + e.2 * b.val e.1 j) 0 :=
    foldl_ext (dotStep b j) _ (dotStep_eq b hB j) rowData 0
  rw [hstep, foldl_add_eq_sum, zero_add,
    listsum_eq_Ico (fun k v => v * b.val k j) a.cols (fun k => zero_mul _)
      rowData (hA.inner_row_nodup i rowData hrow)
      (rowData_bounds a hA i rowData hrow)]
  refine Finset.sum_congr rfl ?_
  intro k _
  rw [val_eq_rowData a hA i rowData hrow k]

/-- Rows of `a` with no stored entry contribute a zero dot product. -/
theorem dotProduct_eq_zero_of_row (a b : SparseMatrix) (hA : WF a) (i j : Int)
    (h : dlookup a.row_map i = none) : dotProduct a b i j = 0 := by
  refine Finset.sum_eq_zero ?_
  intro k _
  have hz : a.val i k = 0 := by
    show (dlookup a.elements (i, k)).getD 0 = 0
    cases hek : dlookup a.elements (i, k) with
    | none => rfl
    | some v =>
      obtain ⟨inner, h1, _⟩ := (hA.row_agree i k v).mp hek
      rw [h] at h1
      cases h1
  rw [hz, zero_mul]

/-- Columns of `b` with no stored entry contribute a zero dot product. -/
theorem dotProduct_eq_zero_of_col (a b : SparseMatrix) (hB : WF b) (i j : Int)
    (h : dlookup b.col_map j = none) : dotProduct a b i j = 0 := by
  refine Finset.sum_eq_zero ?_
  intro k _
  have hz : b.val k j = 0 := by
    show (dlookup b.elements (k, j)).getD 0 = 0
    cases hek : dlookup b.elements (k, j) with
    | none => rfl
    | some v =>
      obtain ⟨inner, h1, _⟩ := (hB.col_agree k j v).mp hek
      rw [h] at h1
      cases h1
  rw [hz, mul_zero]

theorem row_key_facts (a : SparseMatrix) (hA : WF a) :
    ∀ re ∈ a.row_map, dlookup a.row_map re.1 = some re.2 ∧
      0 ≤ re.1 ∧ re.1 < a.rows := by
  intro re hre
  have hlk : dlookup a.row_map re.1 = some re.2 :=
    (dlookup_eq_some_iff_mem _ _ _ hA.row_nodup).mpr hre
  refine ⟨hlk, ?_⟩
  have hne := hA.row_nonempty re.1 re.2 hlk
  cases hcase : re.2 with
  | nil => exact absurd hcase hne
  | cons e0 t0 =>
    have hmem : e0 ∈ re.2 := by
      rw [hcase]
      exact List.mem_cons_self e0 t0
    have hnd := hA.inner_row_nodup re.1 re.2 hlk
    have hl0 : dlookup re.2 e0.1 = some e0.2 :=
      (dlookup_eq_some_iff_mem _ _ _ hnd).mpr hmem
    have hb := hA.bounds re.1 e0.1 e0.2
      ((hA.row_agree re.1 e0.1 e0.2).mpr ⟨re.2, hlk, hl0⟩)
    exact ⟨hb.1, hb.2.1⟩

theorem col_key_facts (b : SparseMatrix) (hB : WF b) :
    ∀ ce ∈ b.col_map, 0 ≤ ce.1 ∧ ce.1 < b.cols := by
  intro ce hce
  have hlk : dlookup b.col_map ce.1 = some ce.2 :=
    (dlookup_eq_some_iff_mem _ _ _ hB.col_nodup).mpr hce
  have hne := hB.col_nonempty ce.1 ce.2 hlk
  cases hcase : ce.2 with
  | nil => exact absurd hcase hne
  | cons e0 t0 =>
    have hmem : e0 ∈ ce.2 := by
      rw [hcase]
      exact List.mem_cons_self e0 t0
    have hnd := hB.inner_col_nodup ce.1 ce.2 hlk
    have hl0 : dlookup ce.2 e0.1 = some e0.2 :=
      (dlookup_eq_some_iff_mem _ _ _ hnd).mpr hmem
    have hb := hB.bounds e0.1 ce.1 e0.2
      ((hB.col_agree e0.1 ce.1 e0.2).mpr ⟨ce.2, hlk, hl0⟩)
    exact ⟨hb.2.2.1, hb.2.2.2⟩

/-- The inner loop of `multiply` over a list of column entries, for a
fixed non-empty row `i` of `a`. -/
theorem mulInner_ok (a b : SparseMatrix) (hA : WF a) (hB : WF b)
    (i : Int) (rowData : List (Int × Int))
    (hrow : dlookup a.row_map i = some rowData) (hi0 : 0 ≤ i)
    (hi1 : i < a.rows) :
    ∀ (cols : List (Int × List (Int × Int))) (res : SparseMatrix),
      WF res → res.rows = a.rows → res.cols = b.cols →
      (∀ ce ∈ cols, 0 ≤ ce.1 ∧ ce.1 < b.cols) →
      ∃ m', cols.foldlM (fun (res : SparseMatrix) colEntry =>
          let value := rowData.foldl (dotStep b colEntry.1) 0
          if value ≠ 0 then res.set i colEntry.1 value
          else pure res) res = .ok m' ∧
        m'.rows = res.rows ∧ m'.cols = res.cols ∧ WF m' ∧
        ∀ k : Coord, dlookup m'.elements k =
          if k.1 = i ∧ k.2 ∈ cols.map Prod.fst ∧
              dotProduct a b i k.2 ≠ 0 then
            some (dotProduct a b i k.2)
          else dlookup res.elements k := by
  intro cols
  induction cols with
  | nil =>
    intro res hWF _ _ _
    refine ⟨res, rfl, rfl, rfl, hWF, fun k => ?_⟩
    rw [if_neg (by simp)]
  | cons ce rest ih =>
    intro res hWF hrr hrc hbd
    have hdot : rowData.foldl (dotStep b ce.1) 0 = dotProduct a b i ce.1 :=
      dotFold_eq a b hA hB i ce.1 rowData hrow
    have hcb := hbd ce (List.mem_cons_self ce rest)
    have hin : res.inBounds i ce.1 := by
      unfold SparseMatrix.inBounds
      rw [hrr, hrc]
      exact ⟨hi0, hi1, hcb.1, hcb.2⟩
    by_cases hz : dotProduct a b i ce.1 = 0
    · obtain ⟨m', hfold, hr, hc, hW, hlook⟩ := ih res hWF hrr hrc
        (fun ce' hce' => hbd ce' (List.mem_cons_of_mem ce hce'))
      refine ⟨m', ?_, hr, hc, hW, ?_⟩
      · rw [List.foldlM_cons]
        show (if rowData.foldl (dotStep b ce.1) 0 ≠ 0 then
          res.set i ce.1 (rowData.foldl (dotStep b ce.1) 0)
          else pure res).bind _ = _
        rw [hdot, if_neg (not_not_intro hz)]
        exact hfold
      · intro k
        rw [hlook k]
        by_cases hmem : k.1 = i ∧ k.2 ∈ rest.map Prod.fst ∧
            dotProduct a b i k.2 ≠ 0
        · rw [if_pos hmem,
            if_pos ⟨hmem.1, List.mem_cons_of_mem ce.1 hmem.2.1, hmem.2.2⟩]
        · rw [if_neg hmem, if_neg (by
            rintro ⟨h1, h2, h3⟩
            rcases List.mem_cons.mp h2 with h4 | h4
            · rw [h4] at h3
              exact h3 hz
            · exact hmem ⟨h1, h4, h3⟩)]
    · obtain ⟨m₁, hset, hrows, hcols, hWF₁, hchar⟩ :=
        set_ok res i ce.1 (dotProduct a b i ce.1) hWF hin
      obtain ⟨m', hfold, hr, hc, hW, hlook⟩ := ih m₁ hWF₁
        (hrows.trans hrr) (hcols.trans hrc)
        (fun ce' hce' => hbd ce' (List.mem_cons_of_mem ce hce'))
      refine ⟨m', ?_, hr.trans hrows, hc.trans hcols, hW, ?_⟩
      · rw [List.foldlM_cons]
        show (if rowData.foldl (dotStep b ce.1) 0 ≠ 0 then
          res.set i ce.1 (rowData.foldl (dotStep b ce.1) 0)
          else pure res).bind _ = _
        rw [hdot, if_pos hz, hset]
        exact hfold
      · intro k
        rw [hlook k]
        by_cases hmem : k.1 = i ∧ k.2 ∈ rest.map Prod.fst ∧
            dotProduct a b i k.2 ≠ 0
        · rw [if_pos hmem,
            if_pos ⟨hmem.1, List.mem_cons_of_mem ce.1 hmem.2.1, hmem.2.2⟩]
        · rw [if_neg hmem, hchar k]
          by_cases hkp : k = (i, ce.1)
          · have h1 : k.1 = i := congrArg Prod.fst hkp
            have h2 : k.2 = ce.1 := congrArg Prod.snd hkp
            have hm2 : k.2 ∈ (ce :: rest).map Prod.fst := by
              rw [h2]
              exact List.mem_cons_self ce.1 (rest.map Prod.fst)
            have hz2 : dotProduct a b i k.2 ≠ 0 := by
              rw [h2]
              exact hz
            rw [if_pos hkp, if_neg hz, if_pos ⟨h1, hm2, hz2⟩, h2]
          · rw [if_neg hkp, if_neg (by
              rintro ⟨h1, h2, h3⟩
              rcases List.mem_cons.mp h2 with h4 | h4
              · exact hkp (by
                  cases k with
                  | mk k1 k2 =>
                    simp only at h1 h4
                    rw [h1, h4])
              · exact hmem ⟨h1, h4, h3⟩)]

/-- The outer loop of `multiply` over a list of row entries of `a`. -/
theorem mulOuter_ok (a b : SparseMatrix) (hA : WF a) (hB : WF b) :
    ∀ (rowsL : List (Int × List (Int × Int))) (res : SparseMatrix),
      WF res → res.rows = a.rows → res.cols = b.cols →
      (∀ re ∈ rowsL, dlookup a.row_map re.1 = some re.2 ∧
        0 ≤ re.1 ∧ re.1 < a.rows) →
      (∀ ce ∈ b.col_map, 0 ≤ ce.1 ∧ ce.1 < b.cols) →
      ∃ m', rowsL.foldlM (fun (res : SparseMatrix) rowEntry =>
          b.col_map.foldlM (fun (res : SparseMatrix) colEntry =>
            let value := rowEntry.2.foldl (dotStep b colEntry.1) 0
            if value ≠ 0 then res.set rowEntry.1 colEntry.1 value
            else pure res) res) res = .ok m' ∧
        m'.rows = res.rows ∧ m'.cols = res.cols ∧ WF m' ∧
        ∀ k : Coord, dlookup m'.elements k =
          if k.1 ∈ rowsL.map Prod.fst ∧ k.2 ∈ b.col_map.map Prod.fst ∧
              dotProduct a b k.1 k.2 ≠ 0 then
            some (dotProduct a b k.1 k.2)
          else dlookup res.elements k := by
  intro rowsL
  induction rowsL with
  | nil =>
    intro res hWF _ _ _ _
    refine ⟨res, rfl, rfl, rfl, hWF, fun k => ?_⟩
    rw [if_neg (by simp)]
  | cons re rest ih =>
    intro res hWF hrr hrc hrows hcols
    obtain ⟨hre, hre0, hre1⟩ := hrows re (List.mem_cons_self re rest)
    obtain ⟨m₁, hfold₁, hrows₁, hcols₁, hWF₁, hchar₁⟩ :=
      mulInner_ok a b hA hB re.1 re.2 hre hre0 hre1 b.col_map res
        hWF hrr hrc hcols
    obtain ⟨m', hfold, hr, hc, hW, hlook⟩ := ih m₁ hWF₁
      (hrows₁.trans hrr) (hcols₁.trans hrc)
      (fun re' hre' => hrows re' (List.mem_cons_of_mem re hre')) hcols
    refine ⟨m', ?_, hr.trans hrows₁, hc.trans hcols₁, hW, ?_⟩
    · rw [List.foldlM_cons, hfold₁]
      exact hfold
    · intro k
      rw [hlook k]
      by_cases hmem : k.1 ∈ rest.map Prod.fst ∧ k.2 ∈ b.col_map.map Prod.fst ∧
          dotProduct a b k.1 k.2 ≠ 0
      · rw [if_pos hmem,
          if_pos ⟨List.mem_cons_of_mem re.1 hmem.1, hmem.2.1, hmem.2.2⟩]
      · rw [if_neg hmem, hchar₁ k]
        by_cases hk1 : k.1 = re.1 ∧ k.2 ∈ b.col_map.map Prod.fst ∧
            dotProduct a b re.1 k.2 ≠ 0
        · have hm1 : k.1 ∈ (re :: rest).map Prod.fst := by
            rw [hk1.1]
            exact List.mem_cons_self re.1 (rest.map Prod.fst)
          have hz1 : dotProduct a b k.1 k.2 ≠ 0 := by
            rw [hk1.1]
            exact hk1.2.2
          rw [if_pos hk1, if_pos ⟨hm1, hk1.2.1, hz1⟩, hk1.1]
        · rw [if_neg hk1, if_neg (by
            rintro ⟨h1, h2, h3⟩
            rcases List.mem_cons.mp h1 with h4 | h4
            · exact hk1 ⟨h4, h2, by rw [← h4]; exact h3⟩
            · exact hmem ⟨h4, h2, h3⟩)]

/-- `multiply` succeeds on compatible shapes with exactly the non-zero
dot products stored. -/
theorem multiply_ok (a b : SparseMatrix) (hA : WF a) (hB : WF b)
    (hab : a.cols = b.rows) :
    ∃ m, a.multiply b = .ok m ∧ m.rows = a.rows ∧ m.cols = b.cols ∧ WF m ∧
      ∀ k : Coord, dlookup m.elements k =
        if dotProduct a b k.1 k.2 = 0 then none
        else some (dotProduct a b k.1 k.2) := by
  have h0 : SparseMatrix.new a.rows b.cols = .ok ⟨a.rows, b.cols, [], [], [], 0⟩ :=
    new_ok _ _ hA.rows_pos hB.cols_pos
  have hWF0 : WF ⟨a.rows, b.cols, [], [], [], 0⟩ :=
    WF_empty _ _ hA.rows_pos hB.cols_pos
  obtain ⟨m', hfold, hrows, hcols, hW, hlook⟩ :=
    mulOuter_ok a b hA hB a.row_map ⟨a.rows, b.cols, [], [], [], 0⟩
      hWF0 rfl rfl (row_key_facts a hA) (col_key_facts b hB)
  refine ⟨m', ?_, hrows, hcols, hW, ?_⟩
  · rw [SparseMatrix.multiply, if_neg (not_not_intro hab), h0]
    exact hfold
  · intro k
    rw [hlook k]
    by_cases hz : dotProduct a b k.1 k.2 = 0
    · rw [if_pos hz, if_neg (by rintro ⟨_, _, h3⟩; exact h3 hz)]
      rfl
    · have hmr : k.1 ∈ a.row_map.map Prod.fst := by
        by_contra hmem
        exact hz (dotProduct_eq_zero_of_row a b hA k.1 k.2
          ((dlookup_eq_none_iff a.row_map k.1).mpr hmem))
      have hmc : k.2 ∈ b.col_map.map Prod.fst := by
        by_contra hmem
        exact hz (dotProduct_eq_zero_of_col a b hB k.1 k.2
          ((dlookup_eq_none_iff b.col_map k.2).mpr hmem))
      rw [if_neg hz, if_pos ⟨hmr, hmc, hz⟩]

theorem multiply_err (a b : SparseMatrix) (h : a.cols ≠ b.rows) :
    a.multiply b = .error .dimensionMismatch := by
  rw [SparseMatrix.multiply, if_pos h]

theorem entryLE_total (a b : Coord × Int) (h : entryLE a b = false) :
    entryLE b a = true := by
  simp only [entryLE, decide_eq_false_iff_not, not_or, not_and, not_lt] at h
  simp only [entryLE, decide_eq_true_eq]
  omega

theorem entryLE_trans (a b c : Coord × Int) (h1 : entryLE a b = true)
    (h2 : entryLE b c = true) : entryLE a c = true := by
  simp only [entryLE, decide_eq_true_eq] at h1 h2 ⊢
  omega

theorem insertSorted_perm (x : Coord × Int) (l : List (Coord × Int)) :
    (insertSorted x l).Perm (x :: l) := by
  induction l with
  | nil => exact List.Perm.refl _
  | cons y t ih =>
    rw [insertSorted]
    by_cases h : entryLE x y = true
    · rw [if_pos h]
    · rw [if_neg h]
      exact (ih.cons y).trans (List.Perm.swap x y t)

theorem sortEntries_perm (l : List (Coord × Int)) : (sortEntries l).Perm l := by
  induction l with
  | nil => exact List.Perm.refl _
  | cons e t ih =>
    have h : sortEntries (e :: t) = insertSorted e (sortEntries t) := rfl
    rw [h]
    exact (insertSorted_perm e (sortEntries t)).trans (ih.cons e)

theorem insertSorted_sorted (x : Coord × Int) (l : List (Coord × Int))
    (hs : l.Pairwise (fun p q => entryLE p q = true)) :
    (insertSorted x l).Pairwise (fun p q => entryLE p q = true) := by
  induction l with
  | nil => simp [insertSorted]
  | cons y t ih =>
    rw [insertSorted]
    obtain ⟨hy, ht⟩ := List.pairwise_cons.mp hs
    by_cases h : entryLE x y = true
    · rw [if_pos h]
      refine List.pairwise_cons.mpr ⟨?_, hs⟩
      intro z hz
      rcases List.mem_cons.mp hz with rfl | hz'
      · exact h
      · exact entryLE_trans x y z h (hy z hz')
    · rw [if_neg h]
      refine List.pairwise_cons.mpr ⟨?_, ih ht⟩
      intro z hz
      have hmem := (insertSorted_perm x t).mem_iff.mp hz
      rcases List.mem_cons.mp hmem with hzx | hz'
      · rw [hzx]
        exact entryLE_total x y (Bool.eq_false_iff.mpr h)
      · exact hy z hz'

theorem sortEntries_sorted (l : List (Coord × Int)) :
    (sortEntries l).Pairwise (fun p q => entryLE p q = true) := by
  induction l with
  | nil => exact List.Pairwise.nil
  | cons e t ih => exact insertSorted_sorted e (sortEntries t) ih

/-- On a unique-key item list the sorted output is strictly increasing in
`(row, col)`: the entry lines are emitted by ascending row, then column. -/
theorem sortEntries_strict (l : List (Coord × Int))
    (hnd : (dkeys l).Nodup) :
    (sortEntries l).Pairwise
      (fun p q => p.1.1 < q.1.1 ∨ (p.1.1 = q.1.1 ∧ p.1.2 < q.1.2)) := by
  have hperm := sortEntries_perm l
  have hnd' : (dkeys (sortEntries l)).Nodup :=
    ((hperm.map Prod.fst).nodup_iff).mpr hnd
  have hne : (sortEntries l).Pairwise (fun p q => p.1 ≠ q.1) := by
    have := List.pairwise_map.mp hnd'
    exact this
  have hle := sortEntries_sorted l
  refine (hle.and hne).imp ?_
  intro p q hpq
  obtain ⟨h1, h2⟩ := hpq
  simp only [entryLE, decide_eq_true_eq] at h1
  rcases h1 with h | ⟨he1, h⟩
  · exact Or.inl h
  · rcases h with h | ⟨he2, _⟩
    · exact Or.inr ⟨he1, h⟩
    · exfalso
      apply h2
      exact Prod.ext_iff.mpr ⟨he1, he2⟩

theorem intRepr_toNat_range (i : Int) :
    ∀ c ∈ intRepr i, c.toNat = 45 ∨ (48 ≤ c.toNat ∧ c.toNat ≤ 57) :=
  mem_intRepr i

theorem intRepr_no_comma (i : Int) : (',' : Char) ∉ intRepr i := by
  intro h
  have h44 : (',' : Char).toNat = 44 := by decide
  rcases mem_intRepr i ',' h with h1 | h1
  · omega
  · omega

theorem intRepr_no_newline (i : Int) : ('\n' : Char) ∉ intRepr i := by
  intro h
  have h10 : ('\n' : Char).toNat = 10 := by decide
  rcases mem_intRepr i '\n' h with h1 | h1
  · omega
  · omega

theorem intRepr_no_equals (i : Int) : ('=' : Char) ∉ intRepr i := by
  intro h
  have h61 : ('=' : Char).toNat = 61 := by decide
  rcases mem_intRepr i '=' h with h1 | h1
  · omega
  · omega

theorem intRepr_not_space (i : Int) :
    ∀ c ∈ intRepr i, isSpaceChar c = false := by
  intro c hc
  rcases mem_intRepr i c hc with h1 | h1
  · exact isSpaceChar_false_of_toNat c ⟨by omega, by omega⟩
  · exact isSpaceChar_false_of_toNat c ⟨by omega, by omega⟩

theorem pyInt_cons_space (l : List Char) : pyInt (' ' :: l) = pyInt l := by
  rw [pyInt, pyInt, strip_cons_space ' ' l (by decide)]

theorem comma_not_mem_space_intRepr (i : Int) :
    (',' : Char) ∉ ' ' :: intRepr i := by
  intro h
  rcases List.mem_cons.mp h with h1 | h1
  · cases h1
  · exact intRepr_no_comma i h1

theorem splitOnChar_entryInner (r c v : Int) :
    splitOnChar ',' (entryInner r c v) =
      [intRepr r, ' ' :: intRepr c, ' ' :: intRepr v] := by
  rw [entryInner, List.append_assoc, List.cons_append, List.cons_append]
  rw [splitOnChar_append_cons ',' (intRepr r) _ (intRepr_no_comma r)]
  rw [show (' ' :: (intRepr c ++ (',' :: ' ' :: intRepr v))) =
    (' ' :: intRepr c) ++ (',' :: (' ' :: intRepr v)) from by simp]
  rw [splitOnChar_append_cons ',' (' ' :: intRepr c) _
    (comma_not_mem_space_intRepr c)]
  rw [splitOnChar_of_not_mem ',' (' ' :: intRepr v)
    (comma_not_mem_space_intRepr v)]

theorem entryLine_getLast (r c v : Int) :
    (entryLine r c v).getLast? = some ')' := by
  rw [entryLine, show ('(' :: (entryInner r c v ++ [')'])) =
    ('(' :: entryInner r c v) ++ [')'] from rfl]
  exact List.getLast?_concat _

/-- Parsing the rendered line `(r, c, v)` recovers `set(r, c, v)` (with
an out-of-bounds `set` reported as a decode failure). -/
theorem parseEntryLine_entryLine (m : SparseMatrix) (r c v : Int) :
    parseEntryLine m (entryLine r c v) =
      match m.set r c v with
      | .ok m' => .ok m'
      | .error _ => .error .malformedInput := by
  rw [parseEntryLine,
    if_neg (not_not_intro ⟨rfl, entryLine_getLast r c v⟩)]
  have hdrop : ((entryLine r c v).drop 1).dropLast = entryInner r c v := by
    rw [entryLine, List.drop_one, List.tail_cons, List.dropLast_concat]
  rw [hdrop, splitOnChar_entryInner r c v]
  show (match pyInt (intRepr r), pyInt (' ' :: intRepr c),
      pyInt (' ' :: intRepr v) with
    | some r', some c', some v' =>
      (match m.set r' c' v' with
      | Except.ok m' => Except.ok m'
      | Except.error _ => Except.error MErr.malformedInput :
        Except MErr SparseMatrix)
    | _, _, _ => Except.error MErr.malformedInput) =
    match m.set r c v with
    | Except.ok m' => Except.ok m'
    | Except.error _ => Except.error MErr.malformedInput
  rw [pyInt_intRepr r, pyInt_cons_space, pyInt_cons_space,
    pyInt_intRepr c, pyInt_intRepr v]

theorem intRepr_ne_nil (i : Int) : intRepr i ≠ [] := by
  rw [intRepr]
  by_cases h : i < 0
  · rw [if_pos h]
    simp
  · rw [if_neg h]
    exact natRepr_ne_nil _

theorem entryLine_no_newline (r c v : Int) : ('\n' : Char) ∉ entryLine r c v := by
  intro h
  rw [entryLine] at h
  rcases List.mem_cons.mp h with h1 | h1
  · cases h1
  · rcases List.mem_append.mp h1 with h2 | h2
    · rw [entryInner] at h2
      rcases List.mem_append.mp h2 with h3 | h3
      · rcases List.mem_append.mp h3 with h4 | h4
        · exact intRepr_no_newline r h4
        · rcases List.mem_cons.mp h4 with h5 | h5
          · cases h5
          · rcases List.mem_cons.mp h5 with h6 | h6
            · cases h6
            · exact intRepr_no_newline c h6
      · rcases List.mem_cons.mp h3 with h5 | h5
        · cases h5
        · rcases List.mem_cons.mp h5 with h6 | h6
          · cases h6
          · exact intRepr_no_newline v h6
    · rcases List.mem_singleton.mp h2 with h3
      cases h3

theorem entryLine_ne_nil (r c v : Int) : entryLine r c v ≠ [] := by
  rw [entryLine]
  simp

theorem strip_entryLine (r c v : Int) :
    strip (entryLine r c v) = entryLine r c v := by
  refine strip_of_ends _ ?_ ?_
  · intro ch hch
    rw [entryLine] at hch
    simp only [List.head?_cons, Option.some.injEq] at hch
    subst hch
    decide
  · intro ch hch
    rw [entryLine_getLast r c v] at hch
    cases hch
    decide

theorem strip_header_rows (i : Int) :
    strip ("rows=".data ++ intRepr i) = "rows=".data ++ intRepr i := by
  refine strip_of_forall _ ?_
  intro ch hch
  rcases List.mem_append.mp hch with h1 | h1
  · have h2 : ch ∈ ['r', 'o', 'w', 's', '='] := h1
    simp only [List.mem_cons, List.not_mem_nil, or_false] at h2
    rcases h2 with rfl | rfl | rfl | rfl | rfl <;> decide
  · exact intRepr_not_space i ch h1

theorem strip_header_cols (i : Int) :
    strip ("cols=".data ++ intRepr i) = "cols=".data ++ intRepr i := by
  refine strip_of_forall _ ?_
  intro ch hch
  rcases List.mem_append.mp hch with h1 | h1
  · have h2 : ch ∈ ['c', 'o', 'l', 's', '='] := h1
    simp only [List.mem_cons, List.not_mem_nil, or_false] at h2
    rcases h2 with rfl | rfl | rfl | rfl | rfl <;> decide
  · exact intRepr_not_space i ch h1

theorem header_rows_ne_nil (i : Int) : "rows=".data ++ intRepr i ≠ [] := by
  intro h
  have := List.append_eq_nil.mp h
  cases this.1

theorem header_cols_ne_nil (i : Int) : "cols=".data ++ intRepr i ≠ [] := by
  intro h
  have := List.append_eq_nil.mp h
  cases this.1

theorem splitOnChar_append_append_cons (sep : Char) (a b rest : List Char)
    (ha : sep ∉ a) (hb : sep ∉ b) :
    splitOnChar sep (a ++ (b ++ sep :: rest)) =
      (a ++ b) :: splitOnChar sep rest := by
  rw [← List.append_assoc]
  refine splitOnChar_append_cons sep (a ++ b) rest ?_
  intro h
  rcases List.mem_append.mp h with h1 | h1
  · exact ha h1
  · exact hb h1

theorem splitOnChar_entriesBlock (entries : List (Coord × Int)) :
    splitOnChar '\n'
      (entries.foldr (fun e acc => entryLine e.1.1 e.1.2 e.2 ++ '\n' :: acc) []) =
      entries.map (fun e => entryLine e.1.1 e.1.2 e.2) ++ [[]] := by
  induction entries with
  | nil => rfl
  | cons e t ih =>
    rw [List.foldr_cons,
      splitOnChar_append_cons '\n' _ _ (entryLine_no_newline e.1.1 e.1.2 e.2),
      ih, List.map_cons, List.cons_append]

theorem splitOnChar_renderFile (rows cols : Int)
    (entries : List (Coord × Int)) :
    splitOnChar '\n' (renderFile rows cols entries).data =
      ("rows=".data ++ intRepr rows) :: ("cols=".data ++ intRepr cols) ::
        (entries.map (fun e => entryLine e.1.1 e.1.2 e.2) ++ [[]]) := by
  show splitOnChar '\n'
      ("rows=".data ++ (intRepr rows ++ '\n' ::
        ("cols=".data ++ (intRepr cols ++ '\n' ::
          entries.foldr (fun e acc => entryLine e.1.1 e.1.2 e.2 ++ '\n' :: acc)
            [])))) = _
  rw [splitOnChar_append_append_cons '\n' _ _ _ (by decide)
      (intRepr_no_newline rows),
    splitOnChar_append_append_cons '\n' _ _ _ (by decide)
      (intRepr_no_newline cols),
    splitOnChar_entriesBlock]

theorem pyLines_renderFile (rows cols : Int) (entries : List (Coord × Int)) :
    pyLines (renderFile rows cols entries) =
      ("rows=".data ++ intRepr rows) :: ("cols=".data ++ intRepr cols) ::
        entries.map (fun e => entryLine e.1.1 e.1.2 e.2) := by
  rw [pyLines, splitOnChar_renderFile, List.map_cons, List.map_cons,
    List.map_append, strip_header_rows, strip_header_cols]
  have hmap : (entries.map (fun e => entryLine e.1.1 e.1.2 e.2)).map strip =
      entries.map (fun e => entryLine e.1.1 e.1.2 e.2) := by
    rw [List.map_map]
    refine List.map_congr_left ?_
    intro e _
    exact strip_entryLine e.1.1 e.1.2 e.2
  rw [hmap]
  rw [List.filter_cons, if_pos (by simp [header_rows_ne_nil rows]),
    List.filter_cons, if_pos (by simp [header_cols_ne_nil cols]),
    List.filter_append]
  have hfe : (entries.map (fun e => entryLine e.1.1 e.1.2 e.2)).filter
      (fun l => l ≠ []) = entries.map (fun e => entryLine e.1.1 e.1.2 e.2) := by
    refine List.filter_eq_self.mpr ?_
    intro line hline
    obtain ⟨e, _, hee⟩ := List.mem_map.mp hline
    simp [← hee, entryLine_ne_nil]
  rw [hfe]
  have hnil : List.filter (fun l => decide (l ≠ [])) (List.map strip [[]]) =
      ([] : List (List Char)) := rfl
  rw [hnil, List.append_nil]

theorem splitOnChar_header_rows (i : Int) :
    splitOnChar '=' ("rows=".data ++ intRepr i) = ["rows".data, intRepr i] := by
  show splitOnChar '=' ("rows".data ++ '=' :: intRepr i) = _
  rw [splitOnChar_append_cons '=' _ _ (by decide),
    splitOnChar_of_not_mem '=' _ (intRepr_no_equals i)]

theorem splitOnChar_header_cols (i : Int) :
    splitOnChar '=' ("cols=".data ++ intRepr i) = ["cols".data, intRepr i] := by
  show splitOnChar '=' ("cols".data ++ '=' :: intRepr i) = _
  rw [splitOnChar_append_cons '=' _ _ (by decide),
    splitOnChar_of_not_mem '=' _ (intRepr_no_equals i)]

theorem foldlM_parse_entries (entries : List (Coord × Int)) :
    ∀ m : SparseMatrix, WF m → (∀ e ∈ entries, m.inBounds e.1.1 e.1.2) →
      (entries.map (fun e => entryLine e.1.1 e.1.2 e.2)).foldlM
        parseEntryLine m =
      entries.foldlM (fun (res : SparseMatrix) e => res.set e.1.1 e.1.2 e.2) m := by
  induction entries with
  | nil =>
    intro m _ _
    rfl
  | cons e t ih =>
    intro m hWF hb
    rw [List.map_cons, List.foldlM_cons, List.foldlM_cons,
      parseEntryLine_entryLine m e.1.1 e.1.2 e.2]
    obtain ⟨m₁, hset, hrows, hcols, hWF₁, _⟩ :=
      set_ok m e.1.1 e.1.2 e.2 hWF (hb e (List.mem_cons_self e t))
    rw [hset]
    exact ih m₁ hWF₁ (fun e' he' =>
      inBounds_congr hrows hcols (hb e' (List.mem_cons_of_mem e he')))

/-- Decoding a rendered header-plus-entries file replays the entries with
`set` on a fresh matrix: the decoded non-zero set holds the last
assigned non-zero value of each coordinate. -/
theorem from_file_renderFile (rows cols : Int) (entries : List (Coord × Int))
    (hr : 0 < rows) (hc : 0 < cols)
    (hb : ∀ e ∈ entries, 0 ≤ e.1.1 ∧ e.1.1 < rows ∧ 0 ≤ e.1.2 ∧ e.1.2 < cols) :
    ∃ m, SparseMatrix.from_file (renderFile rows cols entries) = .ok m ∧
      m.rows = rows ∧ m.cols = cols ∧ WF m ∧
      ∀ k : Coord, dlookup m.elements k =
        match lastEntry entries k with
        | some w => if w = 0 then none else some w
        | none => none := by
  have hb0 : ∀ e ∈ entries,
      (⟨rows, cols, [], [], [], 0⟩ : SparseMatrix).inBounds e.1.1 e.1.2 :=
    fun e he => hb e he
  obtain ⟨m, hfold, hrows, hcols, hWF, hchar⟩ :=
    foldlM_set_ok entries ⟨rows, cols, [], [], [], 0⟩
      (WF_empty rows cols hr hc) hb0
  refine ⟨m, ?_, hrows, hcols, hWF, ?_⟩
  · rw [SparseMatrix.from_file, pyLines_renderFile, parseLines,
      if_neg (not_not_intro (startsWithChars_append "rows=".data (intRepr rows))),
      if_neg (not_not_intro (startsWithChars_append "cols=".data (intRepr cols))),
      splitOnChar_header_rows, splitOnChar_header_cols]
    show (match pyInt (intRepr rows), pyInt (intRepr cols) with
      | some rows', some cols' =>
        (SparseMatrix.new rows' cols').bind fun matrix =>
          (entries.map (fun e => entryLine e.1.1 e.1.2 e.2)).foldlM
            parseEntryLine matrix
      | _, _ => (Except.error MErr.malformedInput : Except MErr SparseMatrix)) =
      Except.ok m
    rw [pyInt_intRepr rows, pyInt_intRepr cols]
    show (SparseMatrix.new rows cols).bind _ = Except.ok m
    rw [new_ok rows cols hr hc]
    show (entries.map (fun e => entryLine e.1.1 e.1.2 e.2)).foldlM
      parseEntryLine (⟨rows, cols, [], [], [], 0⟩ : SparseMatrix) = Except.ok m
    rw [foldlM_parse_entries entries ⟨rows, cols, [], [], [], 0⟩
      (WF_empty rows cols hr hc) hb0]
    exact hfold
  · intro k
    rw [hchar k]
    cases lastEntry entries k with
    | some w => rfl
    | none => rfl

theorem WF_exA2 : WF exA2 :=
  (applyOps_spec [(0, 0, 1), (1, 1, 2)] exM0
    (WF_empty 2 2 (by omega) (by omega))).1

theorem WF_exB2 : WF exB2 :=
  (applyOps_spec [(0, 1, 3)] exM0 (WF_empty 2 2 (by omega) (by omega))).1

theorem WF_exC34 : WF exC34 :=
  (applyOps_spec [(0, 0, 2), (0, 2, 3), (1, 1, 5), (1, 3, 1), (2, 0, 4), (2, 2, 6)]
    ⟨3, 4, [], [], [], 0⟩ (WF_empty 3 4 (by omega) (by omega))).1

theorem WF_exD42 : WF exD42 :=
  (applyOps_spec [(0, 0, 1), (0, 1, 2), (1, 0, 3), (2, 1, 4), (3, 0, 5)]
    ⟨4, 2, [], [], [], 0⟩ (WF_empty 4 2 (by omega) (by omega))).1

theorem new_inv (rows cols : Int) (m : SparseMatrix)
    (h : SparseMatrix.new rows cols = .ok m) :
    0 < rows ∧ 0 < cols ∧ m = ⟨rows, cols, [], [], [], 0⟩ := by
  rw [SparseMatrix.new] at h
  by_cases hc : rows ≤ 0 ∨ cols ≤ 0
  · rw [if_pos hc] at h
    cases h
  · rw [if_neg hc] at h
    cases h
    exact ⟨by omega, by omega, rfl⟩

/-- C1: for matrices with `A.col_count == B.row_count`, `multiply`
returns a new matrix of shape `(A.row_count, B.col_count)` whose value at
every coordinate `(i, j)` equals the dot product
`Σ_k A.get(i,k) * B.get(k,j)` over `k ∈ [0, A.col_count)`, a coordinate
being stored in the result iff that dot product is non-zero; when
`A.col_count ≠ B.row_count`, `multiply` fails with `DimensionMismatch`
and no result is produced. -/
theorem multiply_matches_dot_products (a b : SparseMatrix)
    (hA : WF a) (hB : WF b) :
    (a.cols = b.rows →
      ∃ p, a.multiply b = .ok p ∧ p.rows = a.rows ∧ p.cols = b.cols ∧
        (∀ i j : Int, dlookup p.elements (i, j) =
          if dotProduct a b i j = 0 then none else some (dotProduct a b i j)) ∧
        (∀ i j : Int, p.inBounds i j → p.get i j = .ok (dotProduct a b i j))) ∧
    (a.cols ≠ b.rows → a.multiply b = .error .dimensionMismatch) := by
  constructor
  · intro hab
    obtain ⟨p, hp, hrp, hcp, hW, hlook⟩ := multiply_ok a b hA hB hab
    refine ⟨p, hp, hrp, hcp, fun i j => hlook (i, j), ?_⟩
    intro i j hin
    rw [get_ok p i j hin]
    congr 1
    show (dlookup p.elements (i, j)).getD 0 = _
    rw [hlook (i, j)]
    by_cases hz : dotProduct a b i j = 0
    · rw [if_pos hz, hz]
      rfl
    · rw [if_neg hz]
      rfl
  · exact multiply_err a b

theorem multiply_matches_dot_products_witness :
    (exC34.multiply exD42).map (fun p => (p.rows, p.cols)) = .ok (3, 2) := by
  obtain ⟨hsucc, _⟩ :=
    multiply_matches_dot_products exC34 exD42 WF_exC34 WF_exD42
  obtain ⟨p, hp, hrp, hcp, _, _⟩ := hsucc (by decide)
  rw [hp]
  show Except.ok (p.rows, p.cols) = Except.ok (3, 2)
  rw [hrp, hcp]
  rfl

/-- C2: on equal shapes, `add` (resp. `subtract`) returns a new matrix of
the same shape in which every coordinate that is non-zero in either
operand holds `A.get(r,c) + B.get(r,c)` (resp. `-`), coordinates whose
combined value is 0 being absent from the result; on a shape mismatch
both operations fail with `ShapeMismatch`. -/
theorem add_subtract_pointwise (a b : SparseMatrix) (hA : WF a) (hB : WF b) :
    (a.rows = b.rows ∧ a.cols = b.cols →
      ∃ s d, a.add b = .ok s ∧ a.subtract b = .ok d ∧
        s.rows = a.rows ∧ s.cols = a.cols ∧ d.rows = a.rows ∧ d.cols = a.cols ∧
        (∀ r c : Int, dlookup s.elements (r, c) =
          if a.val r c + b.val r c = 0 then none
          else some (a.val r c + b.val r c)) ∧
        (∀ r c : Int, dlookup d.elements (r, c) =
          if a.val r c - b.val r c = 0 then none
          else some (a.val r c - b.val r c))) ∧
    (a.rows ≠ b.rows ∨ a.cols ≠ b.cols →
      a.add b = .error .shapeMismatch ∧
      a.subtract b = .error .shapeMismatch) := by
  constructor
  · rintro ⟨hr, hc⟩
    obtain ⟨s, hs, hsr, hsc, _, hsl⟩ := add_ok a b hA hB hr hc
    obtain ⟨d, hd, hdr, hdc, _, hdl⟩ := subtract_ok a b hA hB hr hc
    exact ⟨s, d, hs, hd, hsr, hsc, hdr, hdc,
      fun r c => hsl (r, c), fun r c => hdl (r, c)⟩
  · intro h
    exact ⟨add_err a b h, subtract_err a b h⟩

theorem add_subtract_pointwise_witness :
    (exA2.add exB2).map (fun s => dlookup s.elements (0, 1)) = .ok (some 3) ∧
    (exA2.subtract exB2).map (fun d => dlookup d.elements (0, 1)) =
      .ok (some (-3)) := by
  obtain ⟨hok, _⟩ := add_subtract_pointwise exA2 exB2 WF_exA2 WF_exB2
  obtain ⟨s, d, hs, hd, _, _, _, _, hsl, hdl⟩ := hok ⟨by decide, by decide⟩
  constructor
  · rw [hs]
    show Except.ok (dlookup s.elements (0, 1)) = Except.ok (some 3)
    rw [hsl 0 1]
    decide
  · rw [hd]
    show Except.ok (dlookup d.elements (0, 1)) = Except.ok (some (-3))
    rw [hdl 0 1]
    decide

/-- C3: after any finite sequence of `set` calls on a freshly constructed
matrix (calls that raise `IndexError` leave the state unchanged), the
invariants I1 (no stored zero value), I2 (the non-zero set, the row index
and the column index agree) and I3 (no empty inner index dict lingers)
all hold. -/
theorem set_sequence_invariants (rows cols : Int)
    (ops : List (Int × Int × Int)) (m0 : SparseMatrix)
    (h0 : SparseMatrix.new rows cols = .ok m0) :
    (∀ r c v : Int, dlookup (applyOps m0 ops).elements (r, c) = some v →
      v ≠ 0) ∧
    (∀ r c v : Int, dlookup (applyOps m0 ops).elements (r, c) = some v ↔
      (∃ inner, dlookup (applyOps m0 ops).row_map r = some inner ∧
        dlookup inner c = some v)) ∧
    (∀ r c v : Int, dlookup (applyOps m0 ops).elements (r, c) = some v ↔
      (∃ inner, dlookup (applyOps m0 ops).col_map c = some inner ∧
        dlookup inner r = some v)) ∧
    (∀ r inner, dlookup (applyOps m0 ops).row_map r = some inner →
      inner ≠ []) ∧
    (∀ c inner, dlookup (applyOps m0 ops).col_map c = some inner →
      inner ≠ []) := by
  obtain ⟨hrpos, hcpos, hm0⟩ := new_inv rows cols m0 h0
  subst hm0
  have hW := (applyOps_spec ops ⟨rows, cols, [], [], [], 0⟩
    (WF_empty rows cols hrpos hcpos)).1
  exact ⟨hW.nonzero, hW.row_agree, hW.col_agree, hW.row_nonempty,
    hW.col_nonempty⟩

theorem set_sequence_invariants_witness :
    (7 : Int) ≠ 0 ∧
    dlookup (applyOps exM0 [(0, 1, 7), (1, 0, 3), (1, 0, 0), (5, 5, 9)]).elements
      (0, 1) = some 7 := by
  have h := set_sequence_invariants 2 2 [(0, 1, 7), (1, 0, 3), (1, 0, 0), (5, 5, 9)]
    exM0 (by decide)
  have hlk : dlookup (applyOps exM0
      [(0, 1, 7), (1, 0, 3), (1, 0, 0), (5, 5, 9)]).elements (0, 1) = some 7 := by
    decide
  exact ⟨h.1 0 1 7 hlk, hlk⟩

/-- C4 (counterexample): on the spec's multiplication scenario the code
stores 20 at `(1, 0)` — not `(1, 1)` — and 4 — not 8 — at `(2, 0)`, so
the claimed non-zero set `{(0,0,2),(0,1,16),(1,1,20),(2,0,8),(2,1,32)}`
is not what `multiply` produces (nor the true product). -/
theorem mul_scenario_claim_false :
    (exC34.multiply exD42).map (fun m => dlookup m.elements (1, 1)) =
      .ok none ∧
    (exC34.multiply exD42).map (fun m => dlookup m.elements (2, 0)) =
      .ok (some 4) := by
  decide

/-- C4 (amended): `C.multiply(D)` on the scenario matrices is the 3×2
matrix whose non-zero set is exactly
`{(0,0,2),(0,1,16),(1,0,20),(2,0,4),(2,1,32)}` and nothing else. -/
theorem mul_scenario_result :
    (exC34.multiply exD42).map (fun m => (m.rows, m.cols, m.elements)) =
      .ok (3, 2, [((0, 0), 2), ((0, 1), 16), ((1, 0), 20),
        ((2, 0), 4), ((2, 1), 32)]) := by
  decide

/-- C5: on equal shapes the two addition/subtraction strategies — method
1 (seed with one operand's entries and fold in the other's) and method 2
(iterate the union of the non-zero coordinate sets) — produce identical
result matrices (same shape, same non-zero set), and `add` / `subtract`
return a matrix with that same content whichever branch the density
threshold selects. -/
theorem add_sub_strategies_equivalent (a b : SparseMatrix)
    (hA : WF a) (hB : WF b) (hr : a.rows = b.rows) (hc : a.cols = b.cols) :
    ∃ m1 m2 s1 s2 ma ms,
      addViaFold a b = .ok m1 ∧ addViaUnion a b = .ok m2 ∧
      subViaFold a b = .ok s1 ∧ subViaUnion a b = .ok s2 ∧
      a.add b = .ok ma ∧ a.subtract b = .ok ms ∧
      ContentEq m1 m2 ∧ ContentEq s1 s2 ∧
      ContentEq ma m1 ∧ ContentEq ms s1 := by
  obtain ⟨m1, hm1, hr1, hc1, _, hl1⟩ := addViaFold_ok a b hA hB hr hc
  obtain ⟨m2, hm2, hr2, hc2, _, hl2⟩ := addViaUnion_ok a b hA hB hr hc
  obtain ⟨s1, hs1, hsr1, hsc1, _, hsl1⟩ := subViaFold_ok a b hA hB hr hc
  obtain ⟨s2, hs2, hsr2, hsc2, _, hsl2⟩ := subViaUnion_ok a b hA hB hr hc
  obtain ⟨ma, hma, hmar, hmac, _, hmal⟩ := add_ok a b hA hB hr hc
  obtain ⟨ms, hms, hmsr, hmsc, _, hmsl⟩ := subtract_ok a b hA hB hr hc
  refine ⟨m1, m2, s1, s2, ma, ms, hm1, hm2, hs1, hs2, hma, hms, ?_, ?_, ?_, ?_⟩
  · exact ⟨hr1.trans hr2.symm, hc1.trans hc2.symm,
      fun k => (hl1 k).trans (hl2 k).symm⟩
  · exact ⟨hsr1.trans hsr2.symm, hsc1.trans hsc2.symm,
      fun k => (hsl1 k).trans (hsl2 k).symm⟩
  · exact ⟨hmar.trans hr1.symm, hmac.trans hc1.symm,
      fun k => (hmal k).trans (hl1 k).symm⟩
  · exact ⟨hmsr.trans hsr1.symm, hmsc.trans hsc1.symm,
      fun k => (hmsl k).trans (hsl1 k).symm⟩

theorem add_sub_strategies_equivalent_witness :
    (addViaFold exA2 exB2).map (fun m => dlookup m.elements (0, 1)) =
      (addViaUnion exA2 exB2).map (fun m => dlookup m.elements (0, 1)) := by
  obtain ⟨m1, m2, s1, s2, ma, ms, hm1, hm2, _, _, _, _, hC, _⟩ :=
    add_sub_strategies_equivalent exA2 exB2 WF_exA2 WF_exB2
      (by decide) (by decide)
  rw [hm1, hm2]
  show Except.ok (dlookup m1.elements (0, 1)) =
    Except.ok (dlookup m2.elements (0, 1))
  rw [hC.2.2 (0, 1)]

/-- C6: decoding the text produced by encoding any matrix yields a matrix
with the same `row_count`, `col_count` and non-zero set; the encoder is a
pure function (hence deterministic across repeated calls) whose output is
the `rows=`/`cols=` header followed by one line per non-zero entry,
sorted by ascending row and then ascending column. -/
theorem encode_decode_roundtrip (a : SparseMatrix) (hA : WF a) :
    ∃ m, SparseMatrix.from_file a.to_file = .ok m ∧
      m.rows = a.rows ∧ m.cols = a.cols ∧
      (∀ k : Coord, dlookup m.elements k = dlookup a.elements k) ∧
      a.to_file = renderFile a.rows a.cols (sortEntries a.elements) ∧
      (sortEntries a.elements).Perm a.elements ∧
      (sortEntries a.elements).Pairwise
        (fun p q => p.1.1 < q.1.1 ∨ (p.1.1 = q.1.1 ∧ p.1.2 < q.1.2)) := by
  have hperm := sortEntries_perm a.elements
  have hnd : (dkeys (sortEntries a.elements)).Nodup :=
    ((hperm.map Prod.fst).nodup_iff).mpr hA.elem_nodup
  have hb : ∀ e ∈ sortEntries a.elements,
      0 ≤ e.1.1 ∧ e.1.1 < a.rows ∧ 0 ≤ e.1.2 ∧ e.1.2 < a.cols := by
    intro e he
    exact bounds_of_mem a hA e (hperm.mem_iff.mp he)
  obtain ⟨m, hm, hmr, hmc, hW, hchar⟩ :=
    from_file_renderFile a.rows a.cols (sortEntries a.elements)
      hA.rows_pos hA.cols_pos hb
  refine ⟨m, hm, hmr, hmc, ?_, rfl, hperm,
    sortEntries_strict a.elements hA.elem_nodup⟩
  intro k
  rw [hchar k, lastEntry_eq_dlookup _ hnd k,
    dlookup_perm _ _ hperm hnd k]
  cases hak : dlookup a.elements k with
  | none => rfl
  | some w =>
    have hw : w ≠ 0 := hA.nonzero k.1 k.2 w hak
    simp [hw]

theorem encode_decode_roundtrip_witness :
    (SparseMatrix.from_file exC34.to_file).map (fun m => (m.rows, m.cols)) =
      .ok (3, 4) := by
  obtain ⟨m, hm, hmr, hmc, _⟩ := encode_decode_roundtrip exC34 WF_exC34
  rw [hm]
  show Except.ok (m.rows, m.cols) = Except.ok (3, 4)
  rw [hmr, hmc]
  rfl

/-- C7: on any matrix reached by a sequence of `set` calls from a fresh
one, `get` (and `set`) fail with `OutOfBounds` exactly when the
coordinate lies outside `[0, row_count) × [0, col_count)` — in
particular at `(row_count, 0)`, `(-1, 0)` and `(0, col_count)` — and on
every in-bounds coordinate `get` returns the most recently `set` value,
or 0 if the coordinate was never set or last set to 0 (`get` is a pure
read with no effect on the matrix state). -/
theorem get_set_bounds_and_last_value (rows cols : Int)
    (ops : List (Int × Int × Int)) (m0 : SparseMatrix)
    (h0 : SparseMatrix.new rows cols = .ok m0) :
    (∀ r c : Int, ¬ (0 ≤ r ∧ r < rows ∧ 0 ≤ c ∧ c < cols) ↔
      (applyOps m0 ops).get r c = .error .outOfBounds) ∧
    (∀ r c v : Int, ¬ (0 ≤ r ∧ r < rows ∧ 0 ≤ c ∧ c < cols) ↔
      (applyOps m0 ops).set r c v = .error .outOfBounds) ∧
    ((applyOps m0 ops).get rows 0 = .error .outOfBounds ∧
     (applyOps m0 ops).get (-1) 0 = .error .outOfBounds ∧
     (applyOps m0 ops).get 0 cols = .error .outOfBounds) ∧
    (∀ r c : Int, 0 ≤ r ∧ r < rows ∧ 0 ≤ c ∧ c < cols →
      (applyOps m0 ops).get r c = .ok ((lastAssign ops r c).getD 0)) := by
  obtain ⟨hrpos, hcpos, hm0⟩ := new_inv rows cols m0 h0
  subst hm0
  obtain ⟨hW, hre, hce, hlook⟩ := applyOps_spec ops ⟨rows, cols, [], [], [], 0⟩
    (WF_empty rows cols hrpos hcpos)
  have hMin : ∀ r c : Int,
      (applyOps ⟨rows, cols, [], [], [], 0⟩ ops).inBounds r c ↔
      (0 ≤ r ∧ r < rows ∧ 0 ≤ c ∧ c < cols) := by
    intro r c
    unfold SparseMatrix.inBounds
    rw [hre, hce]
  have hget : ∀ r c : Int, ¬ (0 ≤ r ∧ r < rows ∧ 0 ≤ c ∧ c < cols) ↔
      (applyOps ⟨rows, cols, [], [], [], 0⟩ ops).get r c =
        .error .outOfBounds := by
    intro r c
    constructor
    · intro h
      exact get_err _ r c (fun hb => h ((hMin r c).mp hb))
    · intro herr hb
      rw [get_ok _ r c ((hMin r c).mpr hb)] at herr
      exact Except.noConfusion herr
  refine ⟨hget, ?_, ?_, ?_⟩
  · intro r c v
    constructor
    · intro h
      exact set_err _ r c v (fun hb => h ((hMin r c).mp hb))
    · intro herr hb
      obtain ⟨m', hset, _⟩ := set_ok _ r c v hW ((hMin r c).mpr hb)
      rw [hset] at herr
      exact Except.noConfusion herr
  · refine ⟨(hget rows 0).mp ?_, (hget (-1) 0).mp ?_, (hget 0 cols).mp ?_⟩
    · rintro ⟨_, h2, _⟩
      omega
    · rintro ⟨h1, _⟩
      omega
    · rintro ⟨_, _, _, h4⟩
      omega
  · intro r c hb
    rw [get_ok _ r c ((hMin r c).mpr hb)]
    congr 1
    show (dlookup (applyOps ⟨rows, cols, [], [], [], 0⟩ ops).elements
      (r, c)).getD 0 = _
    rw [hlook r c hb]
    cases hla : lastAssign ops r c with
    | none => rfl
    | some w =>
      by_cases hz : w = 0
      · simp [hz]
      · simp [hz]

theorem get_set_bounds_and_last_value_witness :
    (applyOps exM0 [(0, 1, 7), (0, 1, 5)]).get 2 0 = .error .outOfBounds ∧
    (applyOps exM0 [(0, 1, 7), (0, 1, 5)]).get 0 1 = .ok 5 := by
  obtain ⟨_, _, ⟨hc1, _, _⟩, hlast⟩ :=
    get_set_bounds_and_last_value 2 2 [(0, 1, 7), (0, 1, 5)] exM0 (by decide)
  refine ⟨hc1, ?_⟩
  rw [hlast 0 1 (by decide)]
  decide

/-- C8 (counterexample): `add` writes the receiver's
`_last_operation_time` field (`self._last_operation_time = time.time() -
start_time`), so the claim that no field of either operand instance is
written is false: with a measured duration of 7 the returned receiver
state differs from the passed one. -/
theorem timed_add_writes_receiver_field :
    (TimedMatrix.add 7 exT2 exT2).map (fun out => out.1) =
      .ok ⟨exT2.mat, 7⟩ ∧
    (⟨exT2.mat, 7⟩ : TimedMatrix) ≠ exT2 := by
  decide

/-- C8 (amended): `add`, `subtract` and `multiply` leave the matrix
content (shape, non-zero set, indices, count) of both operands unchanged
and the argument matrix entirely unchanged; the only instance field
written is the receiver's `_last_operation_time` diagnostic, which
receives the measured duration, and the result is a distinct freshly
constructed instance (its own diagnostic field still 0). -/
theorem timed_ops_preserve_content (dt : Int) (a b : TimedMatrix)
    (out : TimedMatrix × TimedMatrix × TimedMatrix)
    (h : TimedMatrix.add dt a b = .ok out ∨
      TimedMatrix.subtract dt a b = .ok out ∨
      TimedMatrix.multiply dt a b = .ok out) :
    out.1.mat = a.mat ∧ out.1.last_operation_time = dt ∧
    out.2.1 = b ∧ out.2.2.last_operation_time = 0 := by
  rcases h with h | h | h
  · rw [TimedMatrix.add] at h
    cases hres : a.mat.add b.mat with
    | ok r =>
      rw [hres] at h
      cases h
      exact ⟨rfl, rfl, rfl, rfl⟩
    | error e =>
      rw [hres] at h
      cases h
  · rw [TimedMatrix.subtract] at h
    cases hres : a.mat.subtract b.mat with
    | ok r =>
      rw [hres] at h
      cases h
      exact ⟨rfl, rfl, rfl, rfl⟩
    | error e =>
      rw [hres] at h
      cases h
  · rw [TimedMatrix.multiply] at h
    cases hres : a.mat.multiply b.mat with
    | ok r =>
      rw [hres] at h
      cases h
      exact ⟨rfl, rfl, rfl, rfl⟩
    | error e =>
      rw [hres] at h
      cases h

theorem timed_ops_preserve_content_witness :
    exAddOut.1.mat = exT2.mat ∧ exAddOut.1.last_operation_time = 7 ∧
    exAddOut.2.1 = exT2 ∧ exAddOut.2.2.last_operation_time = 0 :=
  timed_ops_preserve_content 7 exT2 exT2 exAddOut (Or.inl (by decide))

/-- C9: decoding fails with `MalformedInput` whenever the second
non-blank line is not a `cols=...` header, and on an entry line without
exactly three comma-separated integer fields (such as `(0, 0)`); an
entry line whose value field is 0 is accepted and the coordinate simply
is not stored. -/
theorem decode_malformed_and_zero (text : String) (l0 l1 : List Char)
    (rest : List (List Char)) :
    (pyLines text = l0 :: l1 :: rest →
      startsWithChars "cols=".data l1 = false →
      SparseMatrix.from_file text = .error .malformedInput) ∧
    SparseMatrix.from_file "rows=2\ncols=2\n(0, 0)" =
      .error .malformedInput ∧
    (SparseMatrix.from_file "rows=2\ncols=2\n(0, 0, 0)").map
      (fun m => (m.rows, m.cols, m.elements)) = .ok (2, 2, []) := by
  refine ⟨?_, by decide, by decide⟩
  intro hlines hcols
  rw [SparseMatrix.from_file, hlines, parseLines]
  by_cases h0 : startsWithChars "rows=".data l0 = true
  · rw [if_neg (not_not_intro h0), if_pos (by simp [hcols])]
  · rw [if_pos (by simp [h0])]

theorem decode_malformed_and_zero_witness :
    SparseMatrix.from_file "rows=2\nxxx" = .error .malformedInput := by
  have h := (decode_malformed_and_zero "rows=2\nxxx" "rows=2".data
    "xxx".data []).1
  exact h (by decide) (by decide)

/-- C10: an otherwise well-formed input in which several entry lines name
the same coordinate decodes without error, and the decoded matrix holds
the value of the last such line at that coordinate (earlier values are
silently overwritten; a last value of 0 leaves the coordinate absent). -/
theorem decode_duplicate_last_wins (rows cols : Int)
    (entries : List (Coord × Int)) (hr : 0 < rows) (hc : 0 < cols)
    (hb : ∀ e ∈ entries, 0 ≤ e.1.1 ∧ e.1.1 < rows ∧ 0 ≤ e.1.2 ∧ e.1.2 < cols)
    (_hdup : ¬ (dkeys entries).Nodup) :
    ∃ m, SparseMatrix.from_file (renderFile rows cols entries) = .ok m ∧
      m.rows = rows ∧ m.cols = cols ∧
      ∀ k : Coord, dlookup m.elements k =
        match lastEntry entries k with
        | some w => if w = 0 then none else some w
        | none => none := by
  obtain ⟨m, hm, hmr, hmc, _, hchar⟩ :=
    from_file_renderFile rows cols entries hr hc hb
  exact ⟨m, hm, hmr, hmc, hchar⟩

theorem decode_duplicate_last_wins_witness :
    (SparseMatrix.from_file
      (renderFile 2 2 [((0, 0), 1), ((0, 0), 3)])).map
      (fun m => dlookup m.elements (0, 0)) = .ok (some 3) := by
  obtain ⟨m, hm, _, _, hchar⟩ :=
    decode_duplicate_last_wins 2 2 [((0, 0), 1), ((0, 0), 3)]
      (by omega) (by omega) (by decide) (by decide)
  rw [hm]
  show Except.ok (dlookup m.elements (0, 0)) = Except.ok (some 3)
  rw [hchar (0, 0)]
  decide

end SpVer
